import Mathlib

/-!
Verification development for the svgling tree-layout engine
(`svgling/core.py`), as a shallow embedding in Lean 4.

Modelling conventions:
* Python floats are modelled as `ℚ` (all layout arithmetic in the source is
  exact on the inputs we consider; "within floating-point tolerance" in the
  spec becomes exact rational equality here).
* `math.isclose` is modelled as exact equality on `ℚ`.
* Python dicts keyed by level (`level_heights`, `level_ys`) are modelled as
  total functions `ℕ → ℚ`; the source initializes keys `0..depth` to `0`
  and never reads outside that range, so absent keys are modelled as `0`.
* Python exceptions are modelled with `Except PyErr`; an operation that
  raises before mutating `self` is modelled as returning `.error e`, which
  by construction leaves the caller's state value untouched (the embedding
  performs its state updates in the same order as the source, after all
  fallible steps).
* Python list indexing `l[i]` (which allows negative indices counting from
  the end, and raises `IndexError` out of range) is modelled by `pyIndex`.
* SVG objects are not modelled; annotation shapes keep only their geometry.
-/

/-- Input trees with string labels, in the lisp-like list representation the
source's `tree_split` produces for its layout engine: a label plus an ordered
list of children (a leaf has no children). -/
inductive STree where
  | node : String → List STree → STree

def STree.label : STree → String
  | .node l _ => l

def STree.children : STree → List STree
  | .node _ cs => cs

/- `tree_depth` from the source: max depth of `t`, counting a single leaf as
depth 1 (`subdepth + 1` after maximizing over children, starting from 0). -/
mutual
def tree_depth : STree → ℕ
  | .node _ cs => tree_depthL cs + 1
def tree_depthL : List STree → ℕ
  | [] => 0
  | c :: cs => max (tree_depth c) (tree_depthL cs)
end

/-- `HorizSpacing` enum from the source. -/
inductive HorizSpacing where
  | TEXT
  | EVEN
  | NODES
  deriving DecidableEq, Repr

/-- `VertAlign` enum from the source. -/
inductive VertAlign where
  | TOP
  | CENTER
  | BOTTOM
  | FULL
  deriving DecidableEq, Repr

/-- `TreeOptions` from the source (fields that affect layout; rendering-only
fields such as `global_font_style` and `debug` are omitted, as is the unused
`max_depth` attribute). Defaults are the source's defaults. -/
structure TreeOptions where
  horiz_spacing : HorizSpacing := .TEXT
  vert_align : VertAlign := .CENTER
  leaf_padding : ℚ := 2
  distance_to_daughter : ℚ := 2
  leaf_nodes_align : Bool := false
  average_glyph_width : ℚ := 2
  descend_direct : Bool := true
  deriving DecidableEq, Repr

def defaultOptions : TreeOptions := {}

/-- `TreeOptions.label_width`: `(len(str(label)) + leaf_padding) / average_glyph_width`. -/
def label_width (opts : TreeOptions) (label : String) : ℚ :=
  ((label.length : ℚ) + opts.leaf_padding) / opts.average_glyph_width

/-- Python's `max` over a list, which requires a non-empty list; the `[]`
case is dead at every use site (documented at each one). -/
def listMax1 : List ℚ → ℚ
  | [] => 0
  | x :: xs => xs.foldl max x

/-- Python's `max` over a non-empty list of naturals (same convention). -/
def listMaxNat : List ℕ → ℕ
  | [] => 0
  | x :: xs => xs.foldl max x

/-- `NodePos` from the source: one positioned node. The `svg` handle is not
modelled; `text` keeps the label (the source stores the label in `text` for
non-empty labels, and leaves the svg handle there for empty ones — we store
the empty string in that case, which only affects `repr`). -/
structure NodePos where
  x : ℚ
  y : ℚ
  width : ℚ
  inner_width : ℚ
  height : ℚ
  inner_height : ℚ
  depth : ℕ
  text : String
  deriving DecidableEq, Repr

/-- `NodePos.__init__`: `width` is floored at 1 ("avoid divide by 0 errors"),
`inner_width`/`inner_height` keep the raw values. -/
def NodePos.make (x y width height : ℚ) (depth : ℕ) (text : String) : NodePos :=
  { x := x, y := y, width := max width 1, inner_width := width,
    height := height, inner_height := height, depth := depth, text := text }

/-- Python's `label.split("\n")` on the character list: the newline-separated
segments, always at least one (an empty string gives `[""]`). -/
def split_lines_chars : List Char → List (List Char)
  | [] => [[]]
  | c :: rest =>
    match split_lines_chars rest with
    | [] => [[]]
    | h :: t => if c = '\n' then [] :: h :: t else (c :: h) :: t

/-- Python's `label.split("\n")`. -/
def split_lines (s : String) : List String :=
  (split_lines_chars s.data).map (fun cs => String.mk cs)

/-- `NodePos.from_label`: an empty label gets width `label_width("")` and
height 0; otherwise width is the max of `label_width` over the
newline-separated lines and height is the number of lines. -/
def NodePos.from_label (label : String) (depth : ℕ) (opts : TreeOptions) : NodePos :=
  if label.length = 0 then
    NodePos.make 50 0 (label_width opts "") 0 depth ""
  else
    let lines := split_lines label
    -- `lines` is non-empty (`split_lines` never returns []), so `listMax1`
    -- agrees with Python's max here.
    NodePos.make 50 0 (listMax1 (lines.map (label_width opts))) (lines.length : ℚ) depth label

/-- The positioned tree. The source represents a positioned subtree as the
Python list `[NodePos, child, child, ...]`; we use a first-class rose tree. -/
inductive PTree where
  | mk : NodePos → List PTree → PTree

def PTree.node : PTree → NodePos
  | .mk n _ => n

def PTree.children : PTree → List PTree
  | .mk _ cs => cs

/- `leaf_nodecount` from the source, as applied by `_subtree_proportions`:
there it receives a positioned subtree (a Python list `[NodePos, ...]`), which
`tree_split` decomposes into `(NodePos, children)`; a leaf counts as
`1 + leaf_padding`, an internal node as the sum over its children. -/
mutual
def leaf_nodecount (opts : TreeOptions) : PTree → ℚ
  | .mk _ cs => if cs.isEmpty then 1 + opts.leaf_padding else leaf_nodecountL opts cs
def leaf_nodecountL (opts : TreeOptions) : List PTree → ℚ
  | [] => 0
  | c :: cs => leaf_nodecount opts c + leaf_nodecountL opts cs
end

/- `leaf_iter` over a positioned subtree: the in-order list of leaf nodes. -/
mutual
def ptree_leaves : PTree → List NodePos
  | .mk nd cs => if cs.isEmpty then [nd] else ptree_leavesL cs
def ptree_leavesL : List PTree → List NodePos
  | [] => []
  | c :: cs => ptree_leaves c ++ ptree_leavesL cs
end

/- All positioned nodes of a subtree, in preorder. -/
mutual
def ptree_nodes : PTree → List NodePos
  | .mk nd cs => nd :: ptree_nodesL cs
def ptree_nodesL : List PTree → List NodePos
  | [] => []
  | c :: cs => ptree_nodes c ++ ptree_nodesL cs
end

/- All subtrees of a positioned tree (itself included), in preorder. -/
mutual
def ptree_subtrees : PTree → List PTree
  | .mk nd cs => PTree.mk nd cs :: ptree_subtreesL cs
def ptree_subtreesL : List PTree → List PTree
  | [] => []
  | c :: cs => ptree_subtrees c ++ ptree_subtreesL cs
end

/- Number of leaves of a positioned subtree. -/
mutual
def ptree_leafcount : PTree → ℕ
  | .mk _ cs => if cs.isEmpty then 1 else ptree_leafcountL cs
def ptree_leafcountL : List PTree → ℕ
  | [] => 0
  | c :: cs => ptree_leafcount c + ptree_leafcountL cs
end

/- Height (number of levels) of a positioned subtree; mirrors `tree_depth`. -/
mutual
def ptree_height : PTree → ℕ
  | .mk _ cs => ptree_heightL cs + 1
def ptree_heightL : List PTree → ℕ
  | [] => 0
  | c :: cs => max (ptree_height c) (ptree_heightL cs)
end

/- `TreeLayout._build_initial_layout`: pass 1, bottom-up.  Computes raw node
widths and heights, assigns each node its depth (a leaf is reassigned to the
maximum depth `maxd` when `leaf_nodes_align` is set), and threads the
`level_heights` aggregate (updated before recursing, as in the source).
Returns the positioned subtree and the updated aggregate. -/
mutual
def build_initial (opts : TreeOptions) (maxd : ℕ) :
    STree → ℕ → (ℕ → ℚ) → PTree × (ℕ → ℚ)
  | .node label children, level, hs =>
    let lvl := if children.isEmpty && opts.leaf_nodes_align then maxd else level
    let nd := NodePos.from_label label lvl opts
    let hs1 : ℕ → ℚ := fun j => if j = lvl then max (hs lvl) nd.height else hs j
    let r := build_initialL opts maxd children (level + 1) hs1
    (PTree.mk { nd with width := max nd.width ((r.1.map (fun c => c.node.width)).sum) } r.1,
     r.2)
def build_initialL (opts : TreeOptions) (maxd : ℕ) :
    List STree → ℕ → (ℕ → ℚ) → List PTree × (ℕ → ℚ)
  | [], _, hs => ([], hs)
  | c :: cs, level, hs =>
    let r1 := build_initial opts maxd c level hs
    let r2 := build_initialL opts maxd cs level r1.2
    (r1.1 :: r2.1, r2.2)
end

/-- `TreeLayout._subtree_proportions`: sibling width shares.  EVEN gives
`100 / n` to each of `n` children; TEXT uses the children's raw widths and
NODES their padded leaf counts, both normalized so the shares sum to 100.
(When the raw widths sum to 0 the source raises `ZeroDivisionError` during
layout construction; `ℚ` division returns 0 there, and every theorem below
carries a hypothesis ruling that case out.) -/
def subtree_proportions (opts : TreeOptions) (l : List PTree) : List ℚ :=
  if l.isEmpty then []
  else if opts.horiz_spacing = .EVEN then
    List.replicate l.length (100 / (l.length : ℚ))
  else
    let widths := l.map (fun t =>
      if opts.horiz_spacing = .TEXT then t.node.width else leaf_nodecount opts t)
    widths.map (fun w => w * 100 / widths.sum)

/-- The assignment loop of `_normalize_widths`: each child's width is
overwritten with its share and its `x` with the running sum of the prior
siblings' shares.  (The shares list always has the same length as the child
list, so the second branch is dead.) -/
def assign_widths : ℚ → List ℚ → List PTree → List PTree
  | _, _, [] => []
  | _, [], cs => cs
  | x, w :: ws, .mk nd ccs :: cs =>
    PTree.mk { nd with width := w, x := x } ccs :: assign_widths (x + w) ws cs

/- `TreeLayout._normalize_widths`: pass 2, top-down.  Children are
normalized recursively first (which does not touch their own root nodes),
then the shares are computed and assigned. -/
mutual
def normalize_widths (opts : TreeOptions) : PTree → PTree
  | .mk nd cs =>
    let cs1 := normalize_widthsL opts cs
    PTree.mk nd (assign_widths 0 (subtree_proportions opts cs1) cs1)
def normalize_widthsL (opts : TreeOptions) : List PTree → List PTree
  | [] => []
  | c :: cs => normalize_widths opts c :: normalize_widthsL opts cs
end

/-- `TreeLayout.label_y_dodge` (core): top and bottom dodge of a label of the
given `height` within the row at depth `level`, given the `level_heights`
aggregate. -/
def label_y_dodge_core (opts : TreeOptions) (hs : ℕ → ℚ) (level : ℕ) (height : ℚ) : ℚ × ℚ :=
  match opts.vert_align with
  | .TOP => (0, hs level - height)
  | .BOTTOM => (hs level - height, 0)
  | .CENTER => ((hs level - height) / 2, (hs level - height) / 2)
  | .FULL => (0, 0)

/-- The per-node update of `_normalize_y`: under FULL the node's height is
forced to the full row height; then `y` is set to the top dodge. -/
def normY_node (opts : TreeOptions) (hs : ℕ → ℚ) (nd : NodePos) : NodePos :=
  let nd1 := if opts.vert_align = .FULL then { nd with height := hs nd.depth } else nd
  { nd1 with y := (label_y_dodge_core opts hs nd1.depth nd1.height).1 }

/- `TreeLayout._normalize_y`: pass 3. -/
mutual
def normalize_y (opts : TreeOptions) (hs : ℕ → ℚ) : PTree → PTree
  | .mk nd cs => PTree.mk (normY_node opts hs nd) (normalize_yL opts hs cs)
def normalize_yL (opts : TreeOptions) (hs : ℕ → ℚ) : List PTree → List PTree
  | [] => []
  | c :: cs => normalize_y opts hs c :: normalize_yL opts hs cs
end

/-- `TreeLayout._calc_level_ys`: `level_ys[0] = 0` and, for `1 ≤ i ≤ depth`,
`level_ys[i] = distance_to_daughter + level_heights[i-1]`.  Keys above
`depth` are absent in the source's dict and never read; modelled as 0. -/
def calc_level_ys (opts : TreeOptions) (depth : ℕ) (hs : ℕ → ℚ) : ℕ → ℚ :=
  fun i => if i = 0 then 0
           else if i ≤ depth then opts.distance_to_daughter + hs (i - 1)
           else 0

/-- Annotation shapes, geometry only (stroke/fill styling does not affect
layout and is not modelled). -/
inductive Annot where
  | rect : ℚ → ℚ → ℚ → ℚ → Annot
  | line : ℚ → ℚ → ℚ → ℚ → Annot
  deriving DecidableEq, Repr

/-- The state of a `TreeLayout` object: the options, the positioned tree,
the per-level aggregates, and the annotation state that later calls may
grow.  `movement_arrows` is the lazily-created `_movement_arrows` list,
modelled as present-but-empty from the start (equivalent). -/
structure TreeState where
  options : TreeOptions
  depth : ℕ
  level_heights : ℕ → ℚ
  level_ys : ℕ → ℚ
  max_width : ℚ
  extra_y : ℚ
  layout : PTree
  annots : List Annot
  movement_arrows : List (ℚ × ℚ × ℚ)

/-- `TreeLayout.__init__` / `_do_layout`: run the three passes.  The source's
`len(parsed) > 0` guards are always true (a positioned subtree always has its
head node), so the non-degenerate branch is taken: `max_width` is the root's
raw width, and the root is special-cased to width 100 at x = 0 before pass 2. -/
def TreeLayout (t : STree) (opts : TreeOptions) : TreeState :=
  let depth := tree_depth t - 1
  let built := build_initial opts depth t 0 (fun _ => 0)
  let hs := built.2
  let parsed1 := PTree.mk { built.1.node with width := 100, x := 0 } built.1.children
  let parsed2 := normalize_widths opts parsed1
  let parsed3 := normalize_y opts hs parsed2
  { options := opts,
    depth := depth,
    level_heights := hs,
    level_ys := calc_level_ys opts depth hs,
    max_width := built.1.node.width,
    extra_y := 1,
    layout := parsed3,
    annots := [],
    movement_arrows := [] }

/-- `TreeLayout.height`. -/
def TreeState.heightTotal (s : TreeState) : ℚ :=
  ((List.range (s.depth + 1)).map s.level_ys).sum + s.level_heights s.depth + s.extra_y

/-- `TreeLayout.width`. -/
def TreeState.widthTotal (s : TreeState) : ℚ :=
  s.max_width

/-- `TreeLayout.y_distance`: total y distance between two levels; the upper
level is clamped at `depth` as in the source. -/
def TreeState.y_distance (s : TreeState) (level_a level_b : ℕ) : ℚ :=
  ((List.range' (level_a + 1) (min s.depth level_b - level_a)).map s.level_ys).sum

/-- Errors.  `invalidPath i c` is the `AttributeError("Invalid tree path at
index i (daughter c)")` raised by `layout_iter`; `internalErr` marks model
branches that mirror situations the source cannot reach (each use site is
documented). -/
inductive PyErr where
  | invalidPath : ℕ → ℤ → PyErr
  | internalErr : PyErr
  deriving DecidableEq, Repr

/-- Python list indexing: non-negative indices from the front, negative
indices from the back, `none` (IndexError) out of range. -/
def pyNorm (len : ℕ) (i : ℤ) : Option ℕ :=
  if 0 ≤ i then (if i < (len : ℤ) then some i.toNat else none)
  else (if 0 ≤ i + (len : ℤ) then some (i + (len : ℤ)).toNat else none)

def pyIndex {α : Type} (l : List α) (i : ℤ) : Option α :=
  match pyNorm l.length i with
  | none => none
  | some j => l[j]?

/-- `TreeLayout.layout_iter`, fully consumed (every use in the source
converts it to a list): the positioned subtrees along `path`, head first;
raises the invalid-path error at the step where the path is invalid.
`i` is the running step index of the source's loop. -/
def layout_iter_from (t : PTree) : List ℤ → ℕ → Except PyErr (List PTree)
  | [], _ => .ok [t]
  | c :: rest, i =>
    match pyIndex t.children c with
    | none => .error (.invalidPath i c)
    | some child =>
      match layout_iter_from child rest (i + 1) with
      | .ok l => .ok (t :: l)
      | .error e => .error e

def TreeState.layout_iterE (s : TreeState) (path : List ℤ) : Except PyErr (List PTree) :=
  layout_iter_from s.layout path 0

/-- Direct path resolution; proved equivalent to taking the last element of
`layout_iter` (`sublayout`). -/
def resolveIn : PTree → List ℤ → Option PTree
  | t, [] => some t
  | t, c :: rest =>
    match pyIndex t.children c with
    | none => none
    | some child => resolveIn child rest

/-- `TreeLayout.sublayout`: the last position of `layout_iter` (the list is
never empty, so the `[]` fallback is dead). -/
def TreeState.sublayoutE (s : TreeState) (path : List ℤ) : Except PyErr PTree :=
  match s.layout_iterE path with
  | .error e => .error e
  | .ok l =>
    match l.getLast? with
    | some t => .ok t
    | none => .error .internalErr

/-- `TreeLayout.node_x_vals`: walk the nodes along `path` from the outer svg,
accumulating the percentage left offset and width multiplicatively. -/
def TreeState.node_x_valsE (s : TreeState) (path : List ℤ) : Except PyErr (ℚ × ℚ) :=
  match s.layout_iterE path with
  | .error e => .error e
  | .ok l =>
    .ok (l.foldl (fun lw t => (lw.1 + t.node.x * lw.2 / 100, lw.2 * t.node.width / 100))
          ((0 : ℚ), (100 : ℚ)))

/-- The descent loop of `TreeLayout.nmost_path`: follow daughter index `n`
until IndexError, appending the raw index `n` to the path each time (the
source appends `n` itself, so `rightmost_path` really produces paths of
`-1`s, which resolve through Python's negative indexing).  The source's loop
terminates by IndexError at a leaf; `fuel` is an upper bound on the number of
iterations, and `nmost_descend` supplies `ptree_height`, which the lemmas
below show is always sufficient. -/
def nmost_go : ℕ → PTree → List ℤ → ℤ → List ℤ
  | 0, _, path, _ => path
  | fuel + 1, .mk _ cs, path, n =>
    match pyIndex cs n with
    | none => path
    | some c => nmost_go fuel c (path ++ [n]) n

def nmost_descend (t : PTree) (path : List ℤ) (n : ℤ) : List ℤ :=
  nmost_go (ptree_height t) t path n

/-- `TreeLayout.nmost_path`: resolves the starting path (propagating the
invalid-path error), then runs the descent loop.  The loop's guard
`i < self.depth + 1` tests the constant `i = len(path)`, so it only decides
whether the loop runs at all. -/
def TreeState.nmost_path (s : TreeState) (path : List ℤ) (n : ℤ) : Except PyErr (List ℤ) :=
  match s.sublayoutE path with
  | .error e => .error e
  | .ok t => .ok (if path.length < s.depth + 1 then nmost_descend t path n else path)

def TreeState.leftmost_path (s : TreeState) (path : List ℤ) : Except PyErr (List ℤ) :=
  s.nmost_path path 0

def TreeState.rightmost_path (s : TreeState) (path : List ℤ) : Except PyErr (List ℤ) :=
  s.nmost_path path (-1)

/-- `TreeLayout.subtree_bounds`: bounding box `(x, y, width, height)` of the
subtree at `path`; x/width in percentages of the outer svg, y/height in ems.
`ptree_leaves` of a subtree is never empty, so `listMaxNat` agrees with the
source's `max(...)`. -/
def TreeState.subtree_boundsE (s : TreeState) (path : List ℤ) : Except PyErr (ℚ × ℚ × ℚ × ℚ) := do
  let parent ← s.sublayoutE path
  let deepest := listMaxNat ((ptree_leaves parent).map (fun nd => nd.depth))
  let lp ← s.leftmost_path path
  let rp ← s.rightmost_path path
  let xv ← s.node_x_valsE lp
  let rv ← s.node_x_valsE rp
  let x := xv.1
  let width := rv.1 + rv.2 - x
  let y := s.y_distance 0 parent.node.depth
  let height := s.y_distance parent.node.depth deepest + s.level_heights deepest + 1/2
  pure (x, y, width, height)

/-- `TreeLayout.box_constituent`: computes the subtree bounds (any
invalid-path error propagates before `self` is touched), then appends one
rectangle to the annotation list. -/
def TreeState.box_constituentE (s : TreeState) (path : List ℤ) : Except PyErr TreeState :=
  match s.subtree_boundsE path with
  | .error e => .error e
  | .ok (x, y, w, h) => .ok { s with annots := s.annots ++ [Annot.rect x y w h] }

/-- `TreeLayout.underline_constituent`: same shape, appending one line along
the bottom edge of the bounds. -/
def TreeState.underline_constituentE (s : TreeState) (path : List ℤ) : Except PyErr TreeState :=
  match s.subtree_boundsE path with
  | .error e => .error e
  | .ok (x, y, w, h) => .ok { s with annots := s.annots ++ [Annot.line x (y + h) (x + w) (y + h)] }

/-- `common_parent` from the source: longest common prefix of two paths, or
the shorter path when one is a prefix of the other. -/
def common_parent : List ℤ → List ℤ → List ℤ
  | a :: as1, b :: bs => if a = b then a :: common_parent as1 bs else []
  | _, [] => []
  | [], _ => []

/-- Leaf-offset of the subtree reached by the relative path `rel` inside `t`:
the number of leaves of `t` strictly to the left of that subtree.  This is
exactly the index that `leaf_span_iter`'s identity scan
(`constituent_leaves[i] == path_leaves[0]`) computes, since `NodePos` objects
are compared by identity in the source and each occurs once. -/
def leaf_offset : PTree → List ℤ → Option ℕ
  | _, [] => some 0
  | .mk _ cs, i :: rest =>
    match pyNorm cs.length i with
    | none => none
    | some j =>
      match cs[j]? with
      | none => none
      | some c =>
        match leaf_offset c rest with
        | none => none
        | some off => some (((cs.take j).map ptree_leafcount).sum + off)

/-- `TreeLayout.leaf_span_iter` composed with the `max` of
`deepest_intervening_leaf`: the deepest leaf depth in the contiguous
left-to-right leaf range delimited by the two paths.  The offsets always
resolve when the two paths do (`leaf_offset` walks the same indices), so the
`internalErr` branch is dead. -/
def TreeState.deepest_intervening (s : TreeState) (path1 path2 : List ℤ) : Except PyErr ℕ := do
  let branch := common_parent path1 path2
  let subB ← s.sublayoutE branch
  let sub1 ← s.sublayoutE path1
  let sub2 ← s.sublayoutE path2
  match leaf_offset subB (path1.drop branch.length),
        leaf_offset subB (path2.drop branch.length) with
  | some i1, some i2 =>
    let len1 := (ptree_leaves sub1).length
    let len2 := (ptree_leaves sub2).length
    let lr := if i1 < i2 then (i1, i2 + len2) else (i2, i1 + len1)
    let span := ((ptree_leaves subB).drop lr.1).take (lr.2 - lr.1)
    -- `span` is non-empty, so `listMaxNat` agrees with the source's `max`.
    pure (listMaxNat (span.map (fun nd => nd.depth)))
  | _, _ => .error .internalErr

/-- The collision predicate of `_movement_find_y` as written in the source:
`math.isclose(y, existing_y) and (x1 < existing_x2 or x2 > existing_x1)`.
Note the `or`: this fires for horizontally disjoint spans too. -/
def arrow_clash (x1 x2 y : ℚ) (a : ℚ × ℚ × ℚ) : Prop :=
  y = a.2.2 ∧ (x1 < a.2.1 ∨ x2 > a.1)

instance (x1 x2 y : ℚ) (a : ℚ × ℚ × ℚ) : Decidable (arrow_clash x1 x2 y a) := by
  unfold arrow_clash
  infer_instance

/-- `_movement_find_y`: scan the placed arrows; on the first clash retry 0.5
lower, otherwise commit `y` and record the new arrow.  The source recurses
unboundedly; `fuel` bounds the retries, and `movement_find_y` supplies
`arrows.length + 1`, which the termination theorem below proves sufficient
(`none` never occurs). -/
def movement_find_y_go : ℕ → List (ℚ × ℚ × ℚ) → ℚ → ℚ → ℚ → Option (ℚ × List (ℚ × ℚ × ℚ))
  | 0, _, _, _, _ => none
  | fuel + 1, arrows, x1, x2, y =>
    match arrows.find? (fun a => decide (arrow_clash x1 x2 y a)) with
    | some _ => movement_find_y_go fuel arrows x1 x2 (y + 1/2)
    | none => some (y, arrows ++ [(x1, x2, y)])

def movement_find_y (arrows : List (ℚ × ℚ × ℚ)) (x1 x2 y : ℚ) :
    Option (ℚ × List (ℚ × ℚ × ℚ)) :=
  movement_find_y_go (arrows.length + 1) arrows x1 x2 y

/-- The default routing height `movement_arrow` hands to `_movement_find_y`:
just below the deepest leaf in the span between the two paths
(`y_distance(0, y_depth) + level_heights[y_depth] + 1.2`). -/
def TreeState.movement_default_y (s : TreeState) (path1 path2 : List ℤ) : Except PyErr ℚ := do
  let y_depth ← s.deepest_intervening path1 path2
  pure (s.y_distance 0 y_depth + s.level_heights y_depth + 6/5)

/-- `TreeLayout.movement_arrow`: resolve both subtree bounds (any
invalid-path error propagates with `self` untouched), pick the routing
height through the collision-avoidance loop, then update the state: grow
`extra_y` to at least 2, record the placed arrow, and append the five line
segments (drop, cross, rise, and the two arrow-head strokes). -/
def TreeState.movement_arrowE (s : TreeState) (path1 path2 : List ℤ) : Except PyErr TreeState := do
  let n1 ← s.subtree_boundsE path1
  let n2 ← s.subtree_boundsE path2
  let (n1px, n1py, n1pw, n1ph) := n1
  let (n2px, n2py, n2pw, n2ph) := n2
  let n1y := n1py + n1ph
  let n1x := n1px + n1pw / 2
  let n2y := n2py + n2ph
  let n2x := n2px + n2pw / 2
  let y0 ← s.movement_default_y path1 path2
  match movement_find_y s.movement_arrows (min n1x n2x) (max n1x n2x) y0 with
  | none => .error .internalErr
  | some (y_target, arrows2) =>
    pure { s with
      extra_y := max s.extra_y 2,
      movement_arrows := arrows2,
      annots := s.annots ++
        [Annot.line n1x n1y n1x y_target,
         Annot.line n1x y_target n2x y_target,
         Annot.line n2x y_target n2x n2y,
         Annot.line n2x n2y (n2x + 1) (n2y + 9/20),
         Annot.line n2x n2y (n2x - 1) (n2y + 9/20)] }

/-- Generic extractor: the payload of an `ok` result, or a default.  Used to
name concrete states in closed witness/counterexample statements. -/
def okOr {α : Type} (r : Except PyErr α) (d : α) : α :=
  match r with
  | .ok a => a
  | .error _ => d

/-- Python values, for the tree-adapter layer (`tree_split` and the
`treelet_split_*` functions): strings, nltk.Tree-like objects (a `label()`
plus children, the object itself iterating over the children since nltk.Tree
inherits from list), plain sequences, and any other value (modelled by the
string its `str()` produces; such values support neither `label()` nor
`len()`, which is what sends them to the fallback). -/
inductive PyVal where
  | pstr : String → PyVal
  | pnltk : PyVal → List PyVal → PyVal
  | plist : List PyVal → PyVal
  | pother : String → PyVal

/-- `treelet_split_str`: strings are leaf nodes. -/
def treelet_split_str : PyVal → Option (PyVal × List PyVal)
  | .pstr s => some (.pstr s, [])
  | _ => none

/-- `treelet_split_nltk`: succeeds exactly when `t.label()` exists; the
children are the elements of the object itself. -/
def treelet_split_nltk : PyVal → Option (PyVal × List PyVal)
  | .pnltk l cs => some (l, cs)
  | _ => none

/-- `treelet_split_list`: lisp-style `(t[0], t[1:])`, with a 0-length
sequence read as an empty leaf.  In Python this also succeeds on strings
(`len`/slicing work on them: the head is the first character and the tail
slice is the remaining string, which iterates as its characters) and on
nltk.Tree objects (which are lists of their children); it fails — the bare
`except` returns `None` — only on values without `len`, modelled by
`pother`. -/
def treelet_split_list : PyVal → Option (PyVal × List PyVal)
  | .pstr s =>
    if s.length = 0 then some (.pstr "", [])
    else some (.pstr (s.take 1), (s.drop 1).toList.map (fun ch => PyVal.pstr (String.mk [ch])))
  | .pnltk _ [] => some (.pstr "", [])
  | .pnltk _ (c :: cs) => some (c, cs)
  | .plist [] => some (.pstr "", [])
  | .plist (c :: cs) => some (c, cs)
  | .pother _ => none

/-- Python's `str()`, as far as `tree_split` can observe it: the fallback is
only ever reached for `pother` values (the earlier rules claim the other
constructors), so the container renderings here are never consumed. -/
def py_str : PyVal → String
  | .pstr s => s
  | .pnltk _ _ => "<nltk.Tree>"
  | .plist _ => "<list>"
  | .pother s => s

/-- `treelet_split_fallback`: `(str(t), ())`, always succeeds. -/
def treelet_split_fallback (t : PyVal) : PyVal × List PyVal :=
  (.pstr (py_str t), [])

/-- `tree_split`: try the representation-specific splitters in the source's
fixed priority order, ending with the total fallback. -/
def tree_split (t : PyVal) : PyVal × List PyVal :=
  match treelet_split_str t with
  | some split => split
  | none =>
    match treelet_split_nltk t with
    | some split => split
    | none =>
      match treelet_split_list t with
      | some split => split
      | none => treelet_split_fallback t

/-- Strong induction for positioned trees (the children of a node are
smaller than the node). -/
def PTree.strongInd {motive : PTree → Prop}
    (h : ∀ nd cs, (∀ c ∈ cs, motive c) → motive (PTree.mk nd cs)) : ∀ t, motive t
  | .mk nd cs => h nd cs (fun c hc => PTree.strongInd h c)
decreasing_by
  have := List.sizeOf_lt_of_mem hc
  simp only [PTree.mk.sizeOf_spec]
  omega

/-- Strong induction for input trees. -/
def STree.strongInd {motive : STree → Prop}
    (h : ∀ l cs, (∀ c ∈ cs, motive c) → motive (STree.node l cs)) : ∀ t, motive t
  | .node l cs => h l cs (fun c hc => STree.strongInd h c)
decreasing_by
  have := List.sizeOf_lt_of_mem hc
  simp only [STree.node.sizeOf_spec]
  omega

/-- Frame conditions for an annotation call on a layout (the conclusion of
claim C9 for one operation): if the call succeeds, the positioned tree, the
per-level aggregates, the stored depth, the max width and the options are
untouched; the annotation list grows by a non-empty appended suffix; and
`extra_y` does not decrease. -/
def frame_ok (s : TreeState) (r : Except PyErr TreeState) : Prop :=
  match r with
  | .error _ => True
  | .ok s2 =>
    s2.layout = s.layout ∧
    s2.level_heights = s.level_heights ∧
    s2.level_ys = s.level_ys ∧
    s2.max_width = s.max_width ∧
    s2.depth = s.depth ∧
    s2.options = s.options ∧
    (∃ new, new ≠ [] ∧ s2.annots = s.annots ++ new) ∧
    s.extra_y ≤ s2.extra_y

/-- Additional effect of a successful `movement_arrow` on `extra_y`: it is
set to `max(extra_y, 2)` — at least 2, but not strictly increased when it
was already 2 or more. -/
def movement_extra_ok (s : TreeState) (r : Except PyErr TreeState) : Prop :=
  match r with
  | .error _ => True
  | .ok s2 => s2.extra_y = max s.extra_y 2

/-- Concrete fixture for claim C2: the spec's scenario tree whose root has
exactly two children. -/
def c2tree : STree :=
  .node "S" [.node "NP" [.node "the" [], .node "dog" []], .node "VP" [.node "barks" []]]

def c2L : TreeState := TreeLayout c2tree defaultOptions

/-- Concrete fixture for claim C3: a hand-built two-leaf layout state with
no arrows placed yet (claim C3's conjuncts quantify over every state). -/
def c3node (x w : ℚ) (d : ℕ) : NodePos :=
  { x := x, y := 0, width := w, inner_width := w, height := 1, inner_height := 1,
    depth := d, text := "n" }

def c3S : TreeState :=
  { options := defaultOptions, depth := 1,
    level_heights := fun _ => 1,
    level_ys := fun i => if i = 0 then 0 else 3,
    max_width := 10, extra_y := 1,
    layout := PTree.mk (c3node 0 100 0)
      [PTree.mk (c3node 0 50 1) [], PTree.mk (c3node 50 50 1) []],
    annots := [], movement_arrows := [] }

def c3s2 : TreeState := okOr (c3S.movement_arrowE [0] [1]) c3S

/-- Concrete fixture for claim C6: a leaf at structural depth 1 in a tree of
maximum depth 2, laid out with `leaf_nodes_align` enabled. -/
def c6opts : TreeOptions := { leaf_nodes_align := true }

def c6tree : STree := .node "S" [.node "a" [], .node "B" [.node "b" []]]

def c6L : TreeState := TreeLayout c6tree c6opts

def c6sub : PTree := (resolveIn c6L.layout [0]).getD c6L.layout

/-- Concrete fixture for claim C9: two identical movement arrows in
sequence. -/
def c9tree : STree := .node "S" [.node "A" [.node "a" []], .node "B" [.node "b" []]]

def c9L : TreeState := TreeLayout c9tree defaultOptions

def c9s1 : TreeState := okOr (c9L.movement_arrowE [0] [1]) c9L

def c9s2 : TreeState := okOr (c9s1.movement_arrowE [0] [1]) c9s1

/-- Concrete fixture for claim C10. -/
def c10L : TreeState := TreeLayout c2tree defaultOptions

/-- The width the spec's (amended) pass-1 rule assigns to a node's own label:
the per-line `labelWidth`, floored at 1 (the flooring and the per-line
maximum are the amendment; the original claim used
`labelWidth(label)` unfloored on the whole label). -/
def spec_label_width (opts : TreeOptions) (label : String) : ℚ :=
  max (listMax1 ((split_lines label).map (label_width opts))) 1

/-- The node width the spec's (amended) pass-1 rule computes, following the
spec's words: a leaf gets its own label width; an internal node the max of
its own label width and the sum of its children's widths. -/
def spec_node_width (opts : TreeOptions) : STree → ℚ
  | .node label cs =>
    if cs.isEmpty then spec_label_width opts label
    else max (spec_label_width opts label) ((cs.attach.map (fun c => spec_node_width opts c.1)).sum)
decreasing_by
  have := List.sizeOf_lt_of_mem c.2
  simp only [STree.node.sizeOf_spec]
  omega

/- Pass 1 without the threaded `level_heights` aggregate: the positioned
subtree `build_initial` returns does not depend on the aggregate, and this
recursion (proved equal below) is easier to reason about. -/
mutual
def build_fst (opts : TreeOptions) (maxd : ℕ) : STree → ℕ → PTree
  | .node label children, level =>
    let lvl := if children.isEmpty && opts.leaf_nodes_align then maxd else level
    let nd := NodePos.from_label label lvl opts
    let rcs := build_fstL opts maxd children (level + 1)
    PTree.mk { nd with width := max nd.width ((rcs.map (fun c => c.node.width)).sum) } rcs
def build_fstL (opts : TreeOptions) (maxd : ℕ) : List STree → ℕ → List PTree
  | [], _ => []
  | c :: cs, level => build_fst opts maxd c level :: build_fstL opts maxd cs level
end

theorem tree_split_pstr (s : String) : tree_split (.pstr s) = (.pstr s, []) := rfl

theorem tree_split_pnltk (lbl : PyVal) (cs : List PyVal) :
    tree_split (.pnltk lbl cs) = (lbl, cs) := rfl

theorem tree_split_pother (s : String) : tree_split (.pother s) = (.pstr s, []) := rfl

/-- C8: `tree_split` is total: it is a function on all of `PyVal`, and in
particular the stringifying fallback (last conjunct) always succeeds.  A
string splits as a leaf with itself as label; an nltk-style object splits by
its earlier-priority rule `(label(), children)` and an arbitrary non-empty
string by the string rule, even though the later sequence rule is also
applicable to both (conjuncts 3 and 4) — an earlier rule never falls
through; an empty sequence yields label `""` and no children; every other
value is handled by the fallback `(str(t), ())`. -/
theorem C8_tree_split_total_and_ordered :
    (∀ s : String, tree_split (.pstr s) = (.pstr s, [])) ∧
    (∀ (lbl : PyVal) (cs : List PyVal), tree_split (.pnltk lbl cs) = (lbl, cs)) ∧
    (∀ s : String, (treelet_split_list (.pstr s)).isSome = true) ∧
    (∀ (lbl : PyVal) (cs : List PyVal), (treelet_split_list (.pnltk lbl cs)).isSome = true) ∧
    (tree_split (.plist []) = (.pstr "", [])) ∧
    (∀ (c : PyVal) (cs : List PyVal), tree_split (.plist (c :: cs)) = (c, cs)) ∧
    (∀ s : String, tree_split (.pother s) = treelet_split_fallback (.pother s) ∧
        treelet_split_fallback (.pother s) = (.pstr s, [])) := by
  refine ⟨fun s => rfl, fun lbl cs => rfl, ?_, ?_, rfl, fun c cs => rfl, fun s => ⟨rfl, rfl⟩⟩
  · intro s
    by_cases h : s.length = 0 <;> simp [treelet_split_list, h]
  · intro lbl cs
    cases cs <;> simp [treelet_split_list]

theorem countP_lt_of_mem_strict {α : Type} {p q : α → Bool} {l : List α}
    (hpq : ∀ x ∈ l, p x = true → q x = true) {a : α} (ha : a ∈ l)
    (hqa : q a = true) (hpa : p a = false) :
    l.countP p < l.countP q := by
  obtain ⟨s, t, rfl⟩ := List.append_of_mem ha
  rw [List.countP_append, List.countP_append, List.countP_cons, List.countP_cons, hpa, hqa]
  have h1 : s.countP p ≤ s.countP q :=
    List.countP_mono_left (fun x hx => hpq x (by simp [hx]))
  have h2 : t.countP p ≤ t.countP q :=
    List.countP_mono_left (fun x hx => hpq x (by simp [hx]))
  norm_num
  omega

/-- The collision-avoidance loop, characterized: with enough fuel it commits
the least height of the form `y + k/2` at which no placed arrow fires the
source's clash test, recording the arrow there. -/
theorem movement_find_y_go_spec :
    ∀ (fuel : ℕ) (arrows : List (ℚ × ℚ × ℚ)) (x1 x2 y : ℚ),
      arrows.countP (fun a => decide (y ≤ a.2.2)) < fuel →
      ∃ k : ℕ,
        movement_find_y_go fuel arrows x1 x2 y
          = some (y + (k : ℚ) / 2, arrows ++ [(x1, x2, y + (k : ℚ) / 2)]) ∧
        (∀ a ∈ arrows, ¬ arrow_clash x1 x2 (y + (k : ℚ) / 2) a) ∧
        (∀ j : ℕ, j < k → ∃ a ∈ arrows, arrow_clash x1 x2 (y + (j : ℚ) / 2) a) := by
  intro fuel
  induction fuel with
  | zero => intro arrows x1 x2 y h; omega
  | succ fuel ih =>
    intro arrows x1 x2 y h
    cases hfind : arrows.find? (fun a => decide (arrow_clash x1 x2 y a)) with
    | none =>
      refine ⟨0, ?_, ?_, by omega⟩
      · simp [movement_find_y_go, hfind]
      · intro a ha
        have := (List.find?_eq_none.mp hfind) a ha
        simpa using this
    | some a =>
      have hmem : a ∈ arrows := List.mem_of_find?_eq_some hfind
      have hcl : arrow_clash x1 x2 y a := by
        have := List.find?_some hfind
        simpa using this
      have hy : y = a.2.2 := hcl.1
      have hcount : arrows.countP (fun b => decide (y + 1/2 ≤ b.2.2)) <
          arrows.countP (fun b => decide (y ≤ b.2.2)) := by
        refine countP_lt_of_mem_strict ?_ hmem ?_ ?_
        · intro b _ hb
          simp only [decide_eq_true_eq] at hb ⊢
          linarith
        · simp [← hy]
        · simp only [decide_eq_false_iff_not, not_le, ← hy]
          linarith
      obtain ⟨k, hres, hnone, hall⟩ := ih arrows x1 x2 (y + 1/2) (by omega)
      have heq : y + 1/2 + (k : ℚ) / 2 = y + ((k + 1 : ℕ) : ℚ) / 2 := by
        push_cast
        ring
      refine ⟨k + 1, ?_, ?_, ?_⟩
      · rw [movement_find_y_go]
        rw [hfind, hres, heq]
      · rw [← heq]
        exact hnone
      · intro j hj
        cases j with
        | zero =>
          refine ⟨a, hmem, ?_⟩
          simpa using hcl
        | succ j =>
          have heq2 : y + 1/2 + (j : ℚ) / 2 = y + ((j + 1 : ℕ) : ℚ) / 2 := by
            push_cast
            ring
          obtain ⟨b, hbmem, hbcl⟩ := hall j (by omega)
          exact ⟨b, hbmem, by rwa [heq2] at hbcl⟩

/-- `movement_find_y` never runs out of fuel: `arrows.length + 1` retries
always suffice, because each retry strictly shrinks the set of placed arrows
at or below the candidate height. -/
theorem movement_find_y_spec (arrows : List (ℚ × ℚ × ℚ)) (x1 x2 y : ℚ) :
    ∃ k : ℕ,
      movement_find_y arrows x1 x2 y
        = some (y + (k : ℚ) / 2, arrows ++ [(x1, x2, y + (k : ℚ) / 2)]) ∧
      (∀ a ∈ arrows, ¬ arrow_clash x1 x2 (y + (k : ℚ) / 2) a) ∧
      (∀ j : ℕ, j < k → ∃ a ∈ arrows, arrow_clash x1 x2 (y + (j : ℚ) / 2) a) := by
  apply movement_find_y_go_spec
  have := List.countP_le_length (fun a => decide (y ≤ a.2.2)) (l := arrows)
  omega

/-- With no previously placed arrows, a successful `movement_arrow` records
exactly one arrow, at the default height (just below the deepest intervening
leaf). -/
theorem movement_arrow_first_at_default (s : TreeState) (p1 p2 : List ℤ) (s2 : TreeState)
    (h0 : s.movement_arrows = []) (h : s.movement_arrowE p1 p2 = .ok s2) (dy : ℚ)
    (hdy : s.movement_default_y p1 p2 = .ok dy) :
    s2.movement_arrows.map (fun a => a.2.2) = [dy] := by
  unfold TreeState.movement_arrowE at h
  cases h1 : s.subtree_boundsE p1 with
  | error e => simp [h1, bind, Except.bind] at h
  | ok n1 =>
    cases h2 : s.subtree_boundsE p2 with
    | error e => simp [h1, h2, bind, Except.bind] at h
    | ok n2 =>
      obtain ⟨n1px, n1py, n1pw, n1ph⟩ := n1
      obtain ⟨n2px, n2py, n2pw, n2ph⟩ := n2
      simp only [h1, h2, hdy, h0, bind, Except.bind, pure, Except.pure] at h
      simp only [movement_find_y, movement_find_y_go, List.find?_nil, List.nil_append] at h
      cases h
      simp

/-- C3 (amended): a `movement_arrow` with no previously placed arrows is
routed at the default height just below the deepest leaf in the span between
the two paths (conjuncts 1 and 2); the retry loop always terminates, placing
the arrow at the least height `y + k·0.5` at which no previously placed
arrow fires the source's clash test (conjunct 3); and an arrow whose
horizontal span genuinely overlaps an already placed arrow at the candidate
height is placed strictly lower on the page (conjunct 4).  Amendment forced
by the counterexample: the source's clash test is
`x1 < existing_x2 or x2 > existing_x1`, which also fires for horizontally
disjoint arrows at the same height, so retries are not limited to
overlapping spans. -/
theorem C3_collision_avoidance :
    (∀ x1 x2 y : ℚ, movement_find_y [] x1 x2 y = some (y, [(x1, x2, y)])) ∧
    (∀ (s : TreeState) (p1 p2 : List ℤ) (s2 : TreeState),
        s.movement_arrows = [] → s.movement_arrowE p1 p2 = .ok s2 →
        ∀ dy : ℚ, s.movement_default_y p1 p2 = .ok dy →
        s2.movement_arrows.map (fun a => a.2.2) = [dy]) ∧
    (∀ (arrows : List (ℚ × ℚ × ℚ)) (x1 x2 y : ℚ),
        ∃ k : ℕ,
          movement_find_y arrows x1 x2 y
            = some (y + (k : ℚ) / 2, arrows ++ [(x1, x2, y + (k : ℚ) / 2)]) ∧
          (∀ a ∈ arrows, ¬ arrow_clash x1 x2 (y + (k : ℚ) / 2) a) ∧
          (∀ j : ℕ, j < k → ∃ a ∈ arrows, arrow_clash x1 x2 (y + (j : ℚ) / 2) a)) ∧
    (∀ (arrows : List (ℚ × ℚ × ℚ)) (x1 x2 y y2 : ℚ) (rest : List (ℚ × ℚ × ℚ)),
        (∃ a ∈ arrows, a.2.2 = y ∧ x1 < a.2.1 ∧ a.1 < x2) →
        movement_find_y arrows x1 x2 y = some (y2, rest) →
        y < y2) := by
  refine ⟨?_, movement_arrow_first_at_default, movement_find_y_spec, ?_⟩
  · intro x1 x2 y
    simp [movement_find_y, movement_find_y_go]
  · intro arrows x1 x2 y y2 rest hover hres
    obtain ⟨a, hamem, hay, hx1, hx2⟩ := hover
    obtain ⟨k, hk, hnone, _⟩ := movement_find_y_spec arrows x1 x2 y
    rw [hres] at hk
    have hy2 : y2 = y + (k : ℚ) / 2 := by
      simpa using congrArg (fun r => r.1) (Option.some.inj hk)
    cases k with
    | zero =>
      exfalso
      apply hnone a hamem
      refine ⟨by simpa using hay.symm, Or.inl ?_⟩
      simpa using hx1
    | succ k =>
      rw [hy2]
      have : (0 : ℚ) < ((k + 1 : ℕ) : ℚ) / 2 := by
        positivity
      linarith

/-- C3 counterexample to the claim as stated: the placed arrow `(10, 20, 5)`
and the new span `(30, 40)` are horizontally disjoint (`20 ≤ 30`), yet the
loop still retries at height 5 and places the new arrow at 5.5 instead of 5 —
the retry is not limited to overlapping spans. -/
theorem C3_counterexample :
    ((20 : ℚ) ≤ 30) ∧
    movement_find_y [(10, 20, 5)] 30 40 5
      = some (11/2, [(10, 20, 5), (30, 40, 11/2)]) ∧
    ((11/2 : ℚ) ≠ 5) := by
  refine ⟨by norm_num, ?_, by norm_num⟩
  norm_num [movement_find_y, movement_find_y_go, arrow_clash]

/-- Witness for C3 at concrete inputs: the first arrow on the two-leaf state
`c3S` is recorded at the default height 26/5, and a genuinely overlapping
second span at an occupied height is pushed strictly lower (5 < 11/2). -/
theorem C3_witness :
    (c3S.movement_arrows = [] ∧ c3S.movement_arrowE [0] [1] = .ok c3s2 ∧
      c3S.movement_default_y [0] [1] = .ok (26/5) ∧
      c3s2.movement_arrows.map (fun a => a.2.2) = [26/5]) ∧
    ((∃ a ∈ [((0 : ℚ), (50 : ℚ), (5 : ℚ))], a.2.2 = 5 ∧ (10 : ℚ) < a.2.1 ∧ a.1 < (60 : ℚ)) ∧
      ((5 : ℚ) < 11/2)) := by
  have harrow : c3S.movement_arrowE [0] [1] = .ok c3s2 := by
    norm_num [c3s2, okOr, c3S, c3node, defaultOptions, TreeState.movement_arrowE,
      TreeState.subtree_boundsE, TreeState.sublayoutE, TreeState.layout_iterE,
      layout_iter_from, pyIndex, pyNorm, TreeState.leftmost_path, TreeState.rightmost_path,
      TreeState.nmost_path, nmost_descend, nmost_go, ptree_height, ptree_heightL,
      ptree_leaves, ptree_leavesL, listMaxNat, TreeState.node_x_valsE, TreeState.y_distance,
      List.range', TreeState.movement_default_y, TreeState.deepest_intervening,
      common_parent, leaf_offset, ptree_leafcount, ptree_leafcountL,
      movement_find_y, movement_find_y_go, arrow_clash, bind, Except.bind, pure, Except.pure,
      PTree.node, PTree.children]
  have hdy : c3S.movement_default_y [0] [1] = .ok (26/5) := by
    norm_num [c3S, c3node, defaultOptions, TreeState.movement_default_y,
      TreeState.deepest_intervening, TreeState.sublayoutE, TreeState.layout_iterE,
      layout_iter_from, pyIndex, pyNorm, common_parent, leaf_offset, ptree_leafcount,
      ptree_leafcountL, ptree_leaves, ptree_leavesL, listMaxNat, TreeState.y_distance,
      List.range', bind, Except.bind, pure, Except.pure, PTree.node, PTree.children]
  constructor
  · exact ⟨rfl, harrow, hdy,
      C3_collision_avoidance.2.1 c3S [0] [1] c3s2 rfl harrow (26/5) hdy⟩
  · refine ⟨⟨(0, 50, 5), by simp, by norm_num⟩, ?_⟩
    exact C3_collision_avoidance.2.2.2 [(0, 50, 5)] 10 60 5 (11/2)
      [(0, 50, 5), (10, 60, 11/2)] ⟨(0, 50, 5), by simp, by norm_num⟩
      (by norm_num [movement_find_y, movement_find_y_go, arrow_clash])

theorem build_initialL_fst_cons (opts : TreeOptions) (maxd : ℕ) (c : STree) (cs : List STree)
    (level : ℕ) (hs : ℕ → ℚ) :
    (build_initialL opts maxd (c :: cs) level hs).1
      = (build_initial opts maxd c level hs).1 ::
        (build_initialL opts maxd cs level (build_initial opts maxd c level hs).2).1 := by
  simp [build_initialL]

/-- The positioned tree built by pass 1 does not depend on the threaded
aggregate: it equals `build_fst`. -/
theorem build_initial_fst (opts : TreeOptions) (maxd : ℕ) :
    ∀ t : STree, ∀ (level : ℕ) (hs : ℕ → ℚ),
      (build_initial opts maxd t level hs).1 = build_fst opts maxd t level := by
  intro t
  induction t using STree.strongInd with
  | _ label cs ih =>
    intro level hs
    have hlist : ∀ (cs2 : List STree), (∀ c ∈ cs2, ∀ (lv : ℕ) (h2 : ℕ → ℚ),
        (build_initial opts maxd c lv h2).1 = build_fst opts maxd c lv) →
        ∀ (lv : ℕ) (h2 : ℕ → ℚ),
        (build_initialL opts maxd cs2 lv h2).1 = build_fstL opts maxd cs2 lv := by
      intro cs2 hcs2
      induction cs2 with
      | nil => intro lv h2; simp [build_initialL, build_fstL]
      | cons c rest ihr =>
        intro lv h2
        rw [build_initialL_fst_cons, build_fstL]
        rw [hcs2 c (by simp)]
        rw [ihr (fun c2 hc2 => hcs2 c2 (by simp [hc2]))]
    simp only [build_initial, build_fst]
    rw [hlist cs ih]

theorem ptree_subtrees_eq (nd : NodePos) (cs : List PTree) :
    ptree_subtrees (PTree.mk nd cs) = PTree.mk nd cs :: ptree_subtreesL cs := by
  rw [ptree_subtrees]

theorem mem_ptree_subtreesL {s : PTree} :
    ∀ {cs : List PTree}, s ∈ ptree_subtreesL cs ↔ ∃ c ∈ cs, s ∈ ptree_subtrees c := by
  intro cs
  induction cs with
  | nil => simp [ptree_subtreesL]
  | cons c rest ih =>
    rw [ptree_subtreesL]
    simp only [List.mem_append, ih, List.mem_cons]
    constructor
    · rintro (h | ⟨c2, hc2, hs2⟩)
      · exact ⟨c, Or.inl rfl, h⟩
      · exact ⟨c2, Or.inr hc2, hs2⟩
    · rintro ⟨c2, hc2 | hc2, hs2⟩
      · exact Or.inl (hc2 ▸ hs2)
      · exact Or.inr ⟨c2, hc2, hs2⟩

theorem self_mem_ptree_subtrees (t : PTree) : t ∈ ptree_subtrees t := by
  cases t with
  | mk nd cs => rw [ptree_subtrees_eq]; exact List.mem_cons_self _ _

theorem mem_ptree_subtrees_iff {s : PTree} {nd : NodePos} {cs : List PTree} :
    s ∈ ptree_subtrees (PTree.mk nd cs) ↔
      s = PTree.mk nd cs ∨ ∃ c ∈ cs, s ∈ ptree_subtrees c := by
  rw [ptree_subtrees_eq]
  simp [mem_ptree_subtreesL]

/-- Every node width produced by pass 1 is at least 1 (the `NodePos`
constructor floors widths at 1, and internal widths only grow). -/
theorem build_fst_width_ge1 (opts : TreeOptions) (maxd : ℕ) :
    ∀ t : STree, ∀ level : ℕ, ∀ s ∈ ptree_subtrees (build_fst opts maxd t level),
      1 ≤ s.node.width := by
  intro t
  induction t using STree.strongInd with
  | _ label cs ih =>
    intro level s hs
    have hlist : ∀ (cs2 : List STree), (∀ c ∈ cs2, ∀ (lv : ℕ),
          ∀ s2 ∈ ptree_subtrees (build_fst opts maxd c lv), 1 ≤ s2.node.width) →
        ∀ (lv : ℕ), ∀ s2 ∈ ptree_subtreesL (build_fstL opts maxd cs2 lv), 1 ≤ s2.node.width := by
      intro cs2 hcs2 lv s2 hs2
      rw [mem_ptree_subtreesL] at hs2
      obtain ⟨c, hc, hmem⟩ := hs2
      have : ∀ {l : List STree}, c ∈ build_fstL opts maxd l lv →
          ∃ c0 ∈ l, c = build_fst opts maxd c0 lv := by
        intro l
        induction l with
        | nil => intro h; simp [build_fstL] at h
        | cons a rest ihl =>
          intro h
          rw [build_fstL] at h
          rcases List.mem_cons.mp h with h | h
          · exact ⟨a, by simp, h⟩
          · obtain ⟨c0, hc0, hceq⟩ := ihl h
            exact ⟨c0, by simp [hc0], hceq⟩
      obtain ⟨c0, hc0, rfl⟩ := this hc
      exact hcs2 c0 hc0 lv s2 hmem
    rw [build_fst] at hs
    rw [mem_ptree_subtrees_iff] at hs
    rcases hs with rfl | ⟨c, hc, hmem⟩
    · simp only [PTree.node]
      have : 1 ≤ (NodePos.from_label label
          (if cs.isEmpty && opts.leaf_nodes_align then maxd else level) opts).width := by
        rw [NodePos.from_label]
        split <;> simp [NodePos.make]
      exact le_trans this (le_max_left _ _)
    · exact hlist cs ih (level + 1) _ (mem_ptree_subtreesL.mpr ⟨c, hc, hmem⟩)

theorem build_fstL_map (opts : TreeOptions) (maxd : ℕ) :
    ∀ (l : List STree) (lv : ℕ),
      build_fstL opts maxd l lv = l.map (fun c => build_fst opts maxd c lv) := by
  intro l lv
  induction l with
  | nil => simp [build_fstL]
  | cons a rest ih => rw [build_fstL, ih]; simp

theorem leaf_nodecountL_of_all (opts : TreeOptions) :
    ∀ (cs : List PTree), (∀ c ∈ cs, 1 ≤ leaf_nodecount opts c) →
      0 ≤ leaf_nodecountL opts cs ∧ (cs ≠ [] → 1 ≤ leaf_nodecountL opts cs) := by
  intro cs
  induction cs with
  | nil => intro _; rw [leaf_nodecountL]; simp
  | cons c rest ih =>
    intro h
    rw [leaf_nodecountL]
    have h1 : 1 ≤ leaf_nodecount opts c := h c (by simp)
    have h2 : 0 ≤ leaf_nodecountL opts rest :=
      (ih (fun d hd => h d (by simp [hd]))).1
    exact ⟨by linarith, fun _ => by linarith⟩

/-- With non-negative leaf padding, every padded leaf count is at least 1. -/
theorem leaf_nodecount_ge1 (opts : TreeOptions) (hpad : 0 ≤ opts.leaf_padding) :
    ∀ t : PTree, 1 ≤ leaf_nodecount opts t := by
  intro t
  induction t using PTree.strongInd with
  | _ nd cs ih =>
    rw [leaf_nodecount]
    split
    · linarith
    · rename_i hne
      have hcs : cs ≠ [] := by
        intro h
        rw [h] at hne
        simp at hne
      exact (leaf_nodecountL_of_all opts cs ih).2 hcs

theorem assign_widths_length :
    ∀ (ws : List ℚ) (cs : List PTree) (x : ℚ), ws.length = cs.length →
      (assign_widths x ws cs).length = cs.length := by
  intro ws
  induction ws with
  | nil =>
    intro cs x h
    cases cs with
    | nil => rfl
    | cons c rest => simp at h
  | cons w ws ih =>
    intro cs x h
    cases cs with
    | nil => simp at h
    | cons c rest =>
      cases c with
      | mk nd ccs =>
        rw [assign_widths]
        simp only [List.length_cons] at h ⊢
        rw [ih rest _ (by omega)]

/-- Full characterization of the `_normalize_widths` assignment loop: the
`i`-th assigned child is the `i`-th original child with its width overwritten
by the `i`-th share and its `x` by the running sum of the earlier shares. -/
theorem assign_widths_get :
    ∀ (ws : List ℚ) (cs : List PTree) (x : ℚ), ws.length = cs.length →
      ∀ (i : ℕ) (c : PTree),
        (assign_widths x ws cs)[i]? = some c ↔
          (∃ w c0, ws[i]? = some w ∧ cs[i]? = some c0 ∧
            c = PTree.mk { c0.node with width := w, x := x + (ws.take i).sum } c0.children) := by
  intro ws
  induction ws with
  | nil =>
    intro cs x h i c
    cases cs with
    | nil => simp [assign_widths]
    | cons c2 rest => simp at h
  | cons w ws ih =>
    intro cs x h i c
    cases cs with
    | nil => simp at h
    | cons c2 rest =>
      cases c2 with
      | mk nd ccs
      =>
        rw [assign_widths]
        cases i with
        | zero =>
          simp only [List.getElem?_cons_zero, Option.some.injEq, List.take_zero,
            List.sum_nil, add_zero]
          constructor
          · intro h
            exact ⟨w, PTree.mk nd ccs, rfl, rfl, by rw [← h]; rfl⟩
          · rintro ⟨w2, c0, hw2, hc0, rfl⟩
            cases hw2
            cases hc0
            rfl
        | succ i =>
          simp only [List.getElem?_cons_succ]
          rw [ih rest (x + w) (by simpa using h) i c]
          constructor
          · rintro ⟨w2, c0, hw, hc0, rfl⟩
            refine ⟨w2, c0, hw, hc0, ?_⟩
            simp [List.take_succ_cons]
            ring_nf
          · rintro ⟨w2, c0, hw, hc0, rfl⟩
            refine ⟨w2, c0, hw, hc0, ?_⟩
            simp [List.take_succ_cons]
            ring_nf

theorem norm_shares_sum (ws : List ℚ) (h : ws.sum ≠ 0) :
    (ws.map (fun w => w * 100 / ws.sum)).sum = 100 := by
  have h1 : (ws.map (fun w => w * 100 / ws.sum)) = ws.map (fun w => w * (100 / ws.sum)) := by
    simp only [mul_div_assoc]
  rw [h1, List.sum_map_mul_right (f := fun b => b)]
  have h2 : (ws.map fun b => b) = ws := List.map_id ws
  rw [h2]
  field_simp

theorem subtree_proportions_length (opts : TreeOptions) (l : List PTree) :
    (subtree_proportions opts l).length = l.length := by
  rw [subtree_proportions]
  split
  · rename_i h
    rw [List.isEmpty_iff] at h
    simp [h]
  · split
    · simp
    · simp

theorem subtree_proportions_even (opts : TreeOptions) (hE : opts.horiz_spacing = .EVEN)
    (l : List PTree) :
    subtree_proportions opts l = List.replicate l.length (100 / (l.length : ℚ)) := by
  rw [subtree_proportions]
  split
  · rename_i h
    rw [List.isEmpty_iff] at h
    simp [h]
  · simp [hE]

/-- The shares assigned to a non-empty child list sum to exactly 100
(over `ℚ`): EVEN trivially, TEXT and NODES because the raw weights are
positive (widths are floored at 1; padded leaf counts need
`0 ≤ leaf_padding`) so the normalization divides by a non-zero total. -/
theorem subtree_proportions_sum (opts : TreeOptions) (l : List PTree) (hne : l ≠ [])
    (hpad : 0 ≤ opts.leaf_padding) (hw : ∀ c ∈ l, 1 ≤ c.node.width) :
    (subtree_proportions opts l).sum = 100 := by
  have hlen : l.length ≠ 0 := fun h => hne (List.length_eq_zero.mp h)
  rw [subtree_proportions]
  rw [if_neg (by simpa [List.isEmpty_iff] using hne)]
  by_cases hEven : opts.horiz_spacing = .EVEN
  · rw [if_pos hEven, List.sum_replicate, nsmul_eq_mul]
    have : (l.length : ℚ) ≠ 0 := by exact_mod_cast hlen
    field_simp
  · rw [if_neg hEven]
    have hge : ∀ w ∈ l.map (fun t =>
        if opts.horiz_spacing = .TEXT then t.node.width else leaf_nodecount opts t), 1 ≤ w := by
      intro w hwm
      obtain ⟨c, hc, rfl⟩ := List.mem_map.mp hwm
      by_cases hT : opts.horiz_spacing = .TEXT
      · rw [if_pos hT]
        exact hw c hc
      · rw [if_neg hT]
        exact leaf_nodecount_ge1 opts hpad c
    have hpos : 0 < (l.map (fun t =>
        if opts.horiz_spacing = .TEXT then t.node.width else leaf_nodecount opts t)).sum := by
      apply List.sum_pos
      · intro a ha
        linarith [hge a ha]
      · simpa using hne
    exact norm_shares_sum _ (ne_of_gt hpos)

theorem assign_widths_map_width :
    ∀ (ws : List ℚ) (cs : List PTree) (x : ℚ), ws.length = cs.length →
      (assign_widths x ws cs).map (fun c => c.node.width) = ws := by
  intro ws
  induction ws with
  | nil =>
    intro cs x h
    cases cs with
    | nil => rfl
    | cons c rest => simp at h
  | cons w ws ih =>
    intro cs x h
    cases cs with
    | nil => simp at h
    | cons c rest =>
      cases c with
      | mk nd ccs =>
        rw [assign_widths, List.map_cons, ih rest (x + w) (by simpa using h)]
        rfl

theorem normalize_widths_node (opts : TreeOptions) (t : PTree) :
    (normalize_widths opts t).node = t.node := by
  cases t with
  | mk nd cs => rw [normalize_widths]; rfl

theorem normalize_widthsL_map (opts : TreeOptions) :
    ∀ cs : List PTree, normalize_widthsL opts cs = cs.map (normalize_widths opts) := by
  intro cs
  induction cs with
  | nil => rw [normalize_widthsL]; rfl
  | cons c rest ih => rw [normalize_widthsL, ih]; rfl

theorem mem_subtrees_of_child {s c : PTree} {nd : NodePos} {cs : List PTree}
    (hc : c ∈ cs) (hs : s ∈ ptree_subtrees c) : s ∈ ptree_subtrees (PTree.mk nd cs) :=
  mem_ptree_subtrees_iff.mpr (Or.inr ⟨c, hc, hs⟩)

/-- Pass 2 establishes the normalization invariant at every node of the
result: the children's widths sum to 100, each child's `x` is the sum of the
widths of its earlier siblings, and under EVEN spacing every child's width
is `100 / childCount`.  The input tree must have all node widths at least 1
(as every pass-1 output does). -/
theorem normalize_widths_invariant (opts : TreeOptions) (hpad : 0 ≤ opts.leaf_padding) :
    ∀ t : PTree, (∀ s ∈ ptree_subtrees t, 1 ≤ s.node.width) →
      ∀ s ∈ ptree_subtrees (normalize_widths opts t),
        (s.children ≠ [] →
          ((s.children.map (fun c => c.node.width)).sum = 100 ∧
           ∀ (i : ℕ) (c : PTree), s.children[i]? = some c →
             c.node.x = ((s.children.map (fun c2 => c2.node.width)).take i).sum)) ∧
        (opts.horiz_spacing = .EVEN → ∀ c ∈ s.children,
           c.node.width = 100 / (s.children.length : ℚ)) := by
  intro t
  induction t using PTree.strongInd with
  | _ nd cs ih =>
    intro hwid s hs
    rw [normalize_widths] at hs
    rw [normalize_widthsL_map] at hs
    set cs1 := cs.map (normalize_widths opts) with hcs1
    set ws := subtree_proportions opts cs1 with hws
    have hlen : ws.length = cs1.length := subtree_proportions_length opts cs1
    have hw1 : ∀ c1 ∈ cs1, 1 ≤ c1.node.width := by
      intro c1 hc1
      obtain ⟨c, hc, rfl⟩ := List.mem_map.mp hc1
      rw [normalize_widths_node]
      exact hwid c (mem_subtrees_of_child hc (self_mem_ptree_subtrees c))
    rw [mem_ptree_subtrees_iff] at hs
    rcases hs with rfl | ⟨a, ha, hsa⟩
    · -- the root of the normalized subtree
      constructor
      · intro hsne
        simp only [PTree.children] at hsne ⊢
        have hmapw : (assign_widths 0 ws cs1).map (fun c => c.node.width) = ws :=
          assign_widths_map_width ws cs1 0 hlen
        have hcs1ne : cs1 ≠ [] := by
          intro h
          apply hsne
          rw [h]
          have hl := assign_widths_length ws [] 0 (by rw [h] at hlen; simpa using hlen)
          simp only [List.length_nil] at hl
          exact List.length_eq_zero.mp hl
        have hsum : ws.sum = 100 := subtree_proportions_sum opts cs1 hcs1ne hpad hw1
        refine ⟨by rw [hmapw, hsum], ?_⟩
        intro i c hic
        obtain ⟨w, c0, hwi, hc0, rfl⟩ := (assign_widths_get ws cs1 0 hlen i c).mp hic
        rw [hmapw]
        show (0 : ℚ) + (ws.take i).sum = (ws.take i).sum
        ring
      · intro hE c hcmem
        simp only [PTree.children] at hcmem ⊢
        obtain ⟨i, hi⟩ := List.mem_iff_getElem?.mp hcmem
        obtain ⟨w, c0, hwi, hc0, rfl⟩ := (assign_widths_get ws cs1 0 hlen i c).mp hi
        have hrep : ws = List.replicate cs1.length (100 / (cs1.length : ℚ)) := by
          rw [hws, subtree_proportions_even opts hE]
        have hwval : w = 100 / (cs1.length : ℚ) := by
          rw [hrep] at hwi
          have := List.getElem?_mem hwi
          exact List.eq_of_mem_replicate this
        have hlcs : (assign_widths 0 ws cs1).length = cs1.length :=
          assign_widths_length ws cs1 0 hlen
        rw [hlcs]
        simpa [PTree.node] using hwval
    · -- a subtree inside one of the assigned children
      have hmem : a ∈ assign_widths 0 ws cs1 := ha
      obtain ⟨i, hi⟩ := List.mem_iff_getElem?.mp hmem
      obtain ⟨w, c0, hwi, hc0, rfl⟩ := (assign_widths_get ws cs1 0 hlen i a).mp hi
      obtain ⟨c, hc, rfl⟩ : ∃ c ∈ cs, normalize_widths opts c = c0 := by
        have := hc0
        rw [hcs1] at this
        rw [List.getElem?_map] at this
        cases hcs : cs[i]? with
        | none => rw [hcs] at this; simp at this
        | some c =>
          rw [hcs] at this
          simp at this
          exact ⟨c, List.getElem?_mem hcs, this⟩
      have hwidc : ∀ s2 ∈ ptree_subtrees c, 1 ≤ s2.node.width := by
        intro s2 hs2
        exact hwid s2 (mem_subtrees_of_child hc hs2)
      cases hnc : normalize_widths opts c with
      | mk nd2 ccs2 =>
        rw [hnc] at hsa
        simp only [PTree.node, PTree.children] at hsa
        rw [mem_ptree_subtrees_iff] at hsa
        rcases hsa with rfl | ⟨b, hb, hsb⟩
        · -- s is the modified child itself: its children are those of the
          -- normalized child, whose invariant comes from the inductive
          -- hypothesis at the normalized child's own root
          have := ih c hc hwidc (normalize_widths opts c) (self_mem_ptree_subtrees _)
          rw [hnc] at this
          simpa only [PTree.children] using this
        · -- s is deeper: it is a subtree of the normalized child
          have hsub : s ∈ ptree_subtrees (normalize_widths opts c) := by
            rw [hnc, mem_ptree_subtrees_iff]
            exact Or.inr ⟨b, hb, hsb⟩
          exact ih c hc hwidc s hsub

theorem normalize_yL_map (opts : TreeOptions) (hs : ℕ → ℚ) :
    ∀ cs : List PTree, normalize_yL opts hs cs = cs.map (normalize_y opts hs) := by
  intro cs
  induction cs with
  | nil => rw [normalize_yL]; rfl
  | cons c rest ih => rw [normalize_yL, ih]; rfl

theorem normY_node_fields (opts : TreeOptions) (hs : ℕ → ℚ) (nd : NodePos) :
    (normY_node opts hs nd).width = nd.width ∧ (normY_node opts hs nd).x = nd.x ∧
      (normY_node opts hs nd).depth = nd.depth ∧ (normY_node opts hs nd).text = nd.text := by
  unfold normY_node
  split <;> exact ⟨rfl, rfl, rfl, rfl⟩

theorem normalize_y_mk (opts : TreeOptions) (hs : ℕ → ℚ) (nd : NodePos) (cs : List PTree) :
    normalize_y opts hs (PTree.mk nd cs)
      = PTree.mk (normY_node opts hs nd) (cs.map (normalize_y opts hs)) := by
  rw [normalize_y, normalize_yL_map]

theorem normalize_y_node (opts : TreeOptions) (hs : ℕ → ℚ) (t : PTree) :
    (normalize_y opts hs t).node = normY_node opts hs t.node := by
  cases t with
  | mk nd cs => rw [normalize_y_mk]; rfl

theorem normalize_y_children (opts : TreeOptions) (hs : ℕ → ℚ) (t : PTree) :
    (normalize_y opts hs t).children = t.children.map (normalize_y opts hs) := by
  cases t with
  | mk nd cs => rw [normalize_y_mk]; rfl

/-- Pass 3 is a node-by-node map: the subtrees of the result are the
`normalize_y` images of the input's subtrees. -/
theorem ptree_subtrees_normalize_y (opts : TreeOptions) (hs : ℕ → ℚ) :
    ∀ t : PTree,
      ptree_subtrees (normalize_y opts hs t)
        = (ptree_subtrees t).map (normalize_y opts hs) := by
  intro t
  induction t using PTree.strongInd with
  | _ nd cs ih =>
    rw [normalize_y_mk, ptree_subtrees_eq, ptree_subtrees_eq]
    simp only [List.map_cons, normalize_y_mk]
    congr 1
    have : ∀ (cs2 : List PTree), (∀ c ∈ cs2,
        ptree_subtrees (normalize_y opts hs c) = (ptree_subtrees c).map (normalize_y opts hs)) →
        ptree_subtreesL (cs2.map (normalize_y opts hs))
          = (ptree_subtreesL cs2).map (normalize_y opts hs) := by
      intro cs2 hcs2
      induction cs2 with
      | nil => simp [ptree_subtreesL]
      | cons c rest ihr =>
        simp only [List.map_cons, ptree_subtreesL]
        rw [hcs2 c (by simp), ihr (fun d hd => hcs2 d (by simp [hd]))]
        simp
    exact this cs ih

theorem TreeLayout_depth (t : STree) (opts : TreeOptions) :
    (TreeLayout t opts).depth = tree_depth t - 1 := rfl

theorem TreeLayout_extra_y (t : STree) (opts : TreeOptions) :
    (TreeLayout t opts).extra_y = 1 := rfl

theorem TreeLayout_annots (t : STree) (opts : TreeOptions) :
    (TreeLayout t opts).annots = [] := rfl

theorem TreeLayout_arrows (t : STree) (opts : TreeOptions) :
    (TreeLayout t opts).movement_arrows = [] := rfl

theorem TreeLayout_options (t : STree) (opts : TreeOptions) :
    (TreeLayout t opts).options = opts := rfl

theorem TreeLayout_level_heights (t : STree) (opts : TreeOptions) :
    (TreeLayout t opts).level_heights
      = (build_initial opts (tree_depth t - 1) t 0 (fun _ => 0)).2 := rfl

theorem TreeLayout_level_ys (t : STree) (opts : TreeOptions) :
    (TreeLayout t opts).level_ys
      = calc_level_ys opts (tree_depth t - 1)
          (build_initial opts (tree_depth t - 1) t 0 (fun _ => 0)).2 := rfl

theorem TreeLayout_layout_eq (t : STree) (opts : TreeOptions) :
    (TreeLayout t opts).layout
      = normalize_y opts (build_initial opts (tree_depth t - 1) t 0 (fun _ => 0)).2
          (normalize_widths opts
            (PTree.mk
              { (build_fst opts (tree_depth t - 1) t 0).node with width := 100, x := 0 }
              (build_fst opts (tree_depth t - 1) t 0).children)) := by
  show normalize_y opts (build_initial opts (tree_depth t - 1) t 0 (fun _ => 0)).2
      (normalize_widths opts
        (PTree.mk
          { (build_initial opts (tree_depth t - 1) t 0 (fun _ => 0)).1.node with
              width := 100, x := 0 }
          (build_initial opts (tree_depth t - 1) t 0 (fun _ => 0)).1.children)) = _
  rw [build_initial_fst]

/-- Widths of a child list are unchanged by pass 3. -/
theorem map_width_normalize_y (opts : TreeOptions) (hs : ℕ → ℚ) (l : List PTree) :
    (l.map (normalize_y opts hs)).map (fun c => c.node.width)
      = l.map (fun c => c.node.width) := by
  rw [List.map_map]
  apply List.map_congr_left
  intro a _
  show (normalize_y opts hs a).node.width = a.node.width
  rw [normalize_y_node]
  exact (normY_node_fields opts hs a.node).1

/-- C1: after layout construction, the root is assigned width 100 at x = 0
(conjunct 1); for every node of the positioned tree with children, the
children's normalized widths sum to exactly 100 and each child's `x` offset
is the sum of the widths of the siblings before it (conjunct 2); and under
EVEN spacing each of the n children receives exactly 100/n (conjunct 3).
The hypothesis `0 ≤ leaf_padding` (satisfied by the default 2) rules out the
zero-total corner in which the source's NODES normalization would raise
`ZeroDivisionError` instead of constructing a layout. -/
theorem C1_normalized_child_widths (t : STree) (opts : TreeOptions)
    (hpad : 0 ≤ opts.leaf_padding) :
    ((TreeLayout t opts).layout.node.width = 100 ∧ (TreeLayout t opts).layout.node.x = 0) ∧
    (∀ s ∈ ptree_subtrees (TreeLayout t opts).layout, s.children ≠ [] →
        ((s.children.map (fun c => c.node.width)).sum = 100 ∧
         ∀ (i : ℕ) (c : PTree), s.children[i]? = some c →
           c.node.x = ((s.children.map (fun c2 => c2.node.width)).take i).sum)) ∧
    (opts.horiz_spacing = .EVEN →
      ∀ s ∈ ptree_subtrees (TreeLayout t opts).layout, ∀ c ∈ s.children,
        c.node.width = 100 / (s.children.length : ℚ)) := by
  have hbuildhs := TreeLayout_level_heights t opts
  set B := build_fst opts (tree_depth t - 1) t 0 with hB
  set parsed1 := PTree.mk { B.node with width := 100, x := 0 } B.children with hparsed1
  have hwid1 : ∀ s ∈ ptree_subtrees parsed1, 1 ≤ s.node.width := by
    intro s hs
    cases hBc : B with
    | mk bn bcs =>
      rw [hparsed1, hBc] at hs
      rw [mem_ptree_subtrees_iff] at hs
      rcases hs with rfl | ⟨c, hc, hmem⟩
      · norm_num [PTree.node]
      · have : s ∈ ptree_subtrees (build_fst opts (tree_depth t - 1) t 0) := by
          rw [← hB, hBc]
          exact mem_subtrees_of_child hc hmem
        exact build_fst_width_ge1 opts (tree_depth t - 1) t 0 s this
  have hinv := normalize_widths_invariant opts hpad parsed1 hwid1
  set hsf := (build_initial opts (tree_depth t - 1) t 0 (fun _ => 0)).2 with hhsf
  have hlay : (TreeLayout t opts).layout
      = normalize_y opts hsf (normalize_widths opts parsed1) := TreeLayout_layout_eq t opts
  refine ⟨?_, ?_, ?_⟩
  · rw [hlay, normalize_y_node]
    rw [(normY_node_fields opts hsf _).1, (normY_node_fields opts hsf _).2.1]
    rw [normalize_widths_node]
    exact ⟨rfl, rfl⟩
  · intro s hs hsne
    rw [hlay, ptree_subtrees_normalize_y] at hs
    obtain ⟨s0, hs0, rfl⟩ := List.mem_map.mp hs
    rw [normalize_y_children] at hsne ⊢
    have hs0ne : s0.children ≠ [] := fun h => hsne (by rw [h]; rfl)
    obtain ⟨hsum, hx⟩ := (hinv s0 hs0).1 hs0ne
    rw [map_width_normalize_y]
    refine ⟨hsum, ?_⟩
    intro i c hic
    rw [List.getElem?_map] at hic
    cases hc0 : s0.children[i]? with
    | none => rw [hc0] at hic; simp at hic
    | some c0 =>
      rw [hc0] at hic
      have hceq : c = normalize_y opts hsf c0 := by
        simpa using hic.symm
      rw [hceq, normalize_y_node, (normY_node_fields opts hsf c0.node).2.1]
      exact hx i c0 hc0
  · intro hE s hs c hc
    rw [hlay, ptree_subtrees_normalize_y] at hs
    obtain ⟨s0, hs0, rfl⟩ := List.mem_map.mp hs
    rw [normalize_y_children] at hc ⊢
    obtain ⟨c0, hc0, rfl⟩ := List.mem_map.mp hc
    rw [normalize_y_node, (normY_node_fields opts hsf c0.node).1, List.length_map]
    exact (hinv s0 hs0).2 hE c0 hc0

/-- Witness for C1 at the spec's scenario tree with the default options. -/
theorem C1_witness :
    ((0 : ℚ) ≤ defaultOptions.leaf_padding) ∧
    (((TreeLayout c2tree defaultOptions).layout.node.width = 100 ∧
        (TreeLayout c2tree defaultOptions).layout.node.x = 0) ∧
     (∀ s ∈ ptree_subtrees (TreeLayout c2tree defaultOptions).layout, s.children ≠ [] →
        ((s.children.map (fun c => c.node.width)).sum = 100 ∧
         ∀ (i : ℕ) (c : PTree), s.children[i]? = some c →
           c.node.x = ((s.children.map (fun c2 => c2.node.width)).take i).sum)) ∧
     (defaultOptions.horiz_spacing = .EVEN →
       ∀ s ∈ ptree_subtrees (TreeLayout c2tree defaultOptions).layout, ∀ c ∈ s.children,
         c.node.width = 100 / (s.children.length : ℚ))) :=
  ⟨by norm_num [defaultOptions],
   C1_normalized_child_widths c2tree defaultOptions (by norm_num [defaultOptions])⟩

theorem string_length_zero {s : String} (h : s.length = 0) : s = "" := by
  cases s with
  | mk data =>
    cases data with
    | nil => rfl
    | cons c cs => simp [String.length] at h

/-- The width `from_label` stores is the floored per-line label width. -/
theorem from_label_width (opts : TreeOptions) (label : String) (lvl : ℕ) :
    (NodePos.from_label label lvl opts).width = spec_label_width opts label := by
  rw [NodePos.from_label]
  split
  · rename_i h
    rw [string_length_zero h]
    rfl
  · rfl

theorem from_label_width_ge1 (opts : TreeOptions) (label : String) (lvl : ℕ) :
    1 ≤ (NodePos.from_label label lvl opts).width := by
  rw [from_label_width]
  exact le_max_right _ _

theorem PTree.node_mk (nd : NodePos) (cs : List PTree) : (PTree.mk nd cs).node = nd := rfl

theorem PTree.children_mk (nd : NodePos) (cs : List PTree) :
    (PTree.mk nd cs).children = cs := rfl

/-- Pass 1 computes exactly the (amended) spec widths. -/
theorem build_fst_width_spec (opts : TreeOptions) (maxd : ℕ) :
    ∀ (t : STree) (level : ℕ),
      (build_fst opts maxd t level).node.width = spec_node_width opts t := by
  intro t
  induction t using STree.strongInd with
  | _ label cs ih =>
    intro level
    have hmap : ((cs.map (fun c => build_fst opts maxd c (level + 1))).map
        (fun c => c.node.width)).sum = (cs.map (spec_node_width opts)).sum := by
      rw [List.map_map]
      congr 1
      apply List.map_congr_left
      intro c hc
      exact ih c hc (level + 1)
    rw [build_fst, spec_node_width]
    simp only [PTree.node_mk, build_fstL_map]
    rw [hmap]
    cases cs with
    | nil =>
      simp only [List.map_nil, List.sum_nil, List.isEmpty_nil, if_true]
      have h1 := from_label_width_ge1 opts label
        (if (List.isEmpty ([] : List STree) && opts.leaf_nodes_align) = true then maxd else level)
      simp only [List.isEmpty_nil] at h1
      rw [max_eq_left (by linarith)]
      exact from_label_width opts label _
    | cons c rest =>
      rw [if_neg (by simp)]
      rw [List.attach_map_val]
      rw [from_label_width]
      rfl

/-- C4 (amended): in the first layout pass, every node's computed own width
follows the spec formulas with two amendments forced by the counterexample:
the own-label width is the per-line maximum of `labelWidth` over the
newline-separated lines, floored at 1 (`spec_label_width`).  A leaf's width
is exactly that value (conjunct 2); an internal node's width is the maximum
of that value and the sum of its children's computed widths (conjunct 3,
with conjunct 4 identifying the children's computed widths). -/
theorem C4_pass1_node_widths (opts : TreeOptions) (maxd : ℕ) :
    ∀ (t : STree) (level : ℕ) (hs : ℕ → ℚ),
      ((build_initial opts maxd t level hs).1.node.width = spec_node_width opts t) ∧
      (t.children = [] →
        (build_initial opts maxd t level hs).1.node.width
          = spec_label_width opts t.label) ∧
      (t.children ≠ [] →
        (build_initial opts maxd t level hs).1.node.width
          = max (spec_label_width opts t.label)
              ((t.children.map (spec_node_width opts)).sum)) ∧
      ((build_initial opts maxd t level hs).1.children.map (fun c => c.node.width)
        = t.children.map (spec_node_width opts)) := by
  intro t level hs
  rw [build_initial_fst]
  cases t with
  | node label cs =>
    refine ⟨build_fst_width_spec opts maxd _ level, ?_, ?_, ?_⟩
    · intro hcs
      simp only [STree.children] at hcs
      subst hcs
      rw [build_fst_width_spec, spec_node_width]
      simp [STree.label]
    · intro hcs
      simp only [STree.children] at hcs ⊢
      rw [build_fst_width_spec, spec_node_width]
      rw [if_neg (by simpa [List.isEmpty_iff] using hcs)]
      rw [List.attach_map_val]
      rfl
    · simp only [STree.children]
      rw [build_fst, PTree.children_mk, build_fstL_map, List.map_map]
      apply List.map_congr_left
      intro c hc
      exact build_fst_width_spec opts maxd c (level + 1)

/-- C4 counterexample to the claim as stated: for the leaf `"x"` with
`leaf_padding = 0`, the claim's formula
`(characterCount + leafPadding) / averageGlyphWidth` gives 1/2, but the code
floors node widths at 1. -/
theorem C4_counterexample :
    (build_initial { leaf_padding := 0 } 0 (.node "x" []) 0 (fun _ => 0)).1.node.width = 1 ∧
    label_width { leaf_padding := 0 } "x" = 1/2 ∧ ((1 : ℚ) ≠ 1/2) := by
  have h1 : "x".length = 1 := rfl
  have h2 : ¬ ('x' = '\n') := by decide
  refine ⟨?_, by norm_num [label_width, h1], by norm_num⟩
  norm_num [build_initial, build_initialL, NodePos.from_label, NodePos.make, label_width,
    split_lines, split_lines_chars, listMax1, PTree.node_mk, max_def, h1, h2]

/-- Witness for C4 at a concrete leaf and internal node with the default
options. -/
theorem C4_witness :
    ((STree.node "a" []).children = [] ∧
      (build_initial defaultOptions 0 (.node "a" []) 0 (fun _ => 0)).1.node.width
        = spec_label_width defaultOptions (STree.node "a" []).label) ∧
    ((STree.node "S" [.node "a" []]).children ≠ [] ∧
      (build_initial defaultOptions 1 (.node "S" [.node "a" []]) 0 (fun _ => 0)).1.node.width
        = max (spec_label_width defaultOptions (STree.node "S" [.node "a" []]).label)
            (((STree.node "S" [.node "a" []]).children.map
                (spec_node_width defaultOptions)).sum)) := by
  constructor
  · exact ⟨rfl,
      (C4_pass1_node_widths defaultOptions 0 (.node "a" []) 0 (fun _ => 0)).2.1 rfl⟩
  · refine ⟨by simp [STree.children], ?_⟩
    exact (C4_pass1_node_widths defaultOptions 1 (.node "S" [.node "a" []]) 0
      (fun _ => 0)).2.2.1 (by simp [STree.children])

theorem ptree_nodes_normalize_y (opts : TreeOptions) (hs : ℕ → ℚ) :
    ∀ t : PTree,
      ptree_nodes (normalize_y opts hs t) = (ptree_nodes t).map (normY_node opts hs) := by
  intro t
  induction t using PTree.strongInd with
  | _ nd cs ih =>
    rw [normalize_y_mk, ptree_nodes, ptree_nodes]
    simp only [List.map_cons]
    congr 1
    have : ∀ (cs2 : List PTree), (∀ c ∈ cs2,
        ptree_nodes (normalize_y opts hs c) = (ptree_nodes c).map (normY_node opts hs)) →
        ptree_nodesL (cs2.map (normalize_y opts hs))
          = (ptree_nodesL cs2).map (normY_node opts hs) := by
      intro cs2 hcs2
      induction cs2 with
      | nil => simp [ptree_nodesL]
      | cons c rest ihr =>
        simp only [List.map_cons, ptree_nodesL]
        rw [hcs2 c (by simp), ihr (fun d hd => hcs2 d (by simp [hd]))]
        simp
    exact this cs ih

/-- The per-node dodge of pass 3, matched against the vertical-align rules. -/
theorem normY_node_dodge (opts : TreeOptions) (hs : ℕ → ℚ) (nd0 : NodePos) :
    (opts.vert_align = .TOP → (normY_node opts hs nd0).y = 0) ∧
    (opts.vert_align = .BOTTOM →
      (normY_node opts hs nd0).y
        = hs (normY_node opts hs nd0).depth - (normY_node opts hs nd0).height) ∧
    (opts.vert_align = .CENTER →
      (normY_node opts hs nd0).y
        = (hs (normY_node opts hs nd0).depth - (normY_node opts hs nd0).height) / 2) ∧
    (opts.vert_align = .FULL →
      (normY_node opts hs nd0).y = 0 ∧
      (normY_node opts hs nd0).height = hs (normY_node opts hs nd0).depth) := by
  unfold normY_node label_y_dodge_core
  cases h : opts.vert_align <;> simp [h]

/-- C5: the vertical level offsets satisfy `level_ys[0] = 0` and, for
`1 ≤ d ≤ depth`, `level_ys[d] = levelGap + level_heights[d-1]`; and every
positioned node's stored `y` is the top dodge prescribed by the
vertical-align option (TOP gives 0, BOTTOM `rowHeight - nodeHeight`, CENTER
half of that, and FULL forces the node's height to the full row height with
zero dodge). -/
theorem C5_vertical_layout (t : STree) (opts : TreeOptions) :
    ((TreeLayout t opts).level_ys 0 = 0) ∧
    (∀ d : ℕ, 1 ≤ d → d ≤ (TreeLayout t opts).depth →
      (TreeLayout t opts).level_ys d
        = opts.distance_to_daughter + (TreeLayout t opts).level_heights (d - 1)) ∧
    (∀ nd ∈ ptree_nodes (TreeLayout t opts).layout,
      (opts.vert_align = .TOP → nd.y = 0) ∧
      (opts.vert_align = .BOTTOM →
        nd.y = (TreeLayout t opts).level_heights nd.depth - nd.height) ∧
      (opts.vert_align = .CENTER →
        nd.y = ((TreeLayout t opts).level_heights nd.depth - nd.height) / 2) ∧
      (opts.vert_align = .FULL →
        nd.y = 0 ∧ nd.height = (TreeLayout t opts).level_heights nd.depth)) := by
  refine ⟨?_, ?_, ?_⟩
  · rw [TreeLayout_level_ys, calc_level_ys]
    simp
  · intro d h1 h2
    rw [TreeLayout_level_ys, TreeLayout_level_heights, calc_level_ys]
    rw [TreeLayout_depth] at h2
    rw [if_neg (by omega), if_pos h2]
  · intro nd hnd
    rw [TreeLayout_layout_eq, ptree_nodes_normalize_y] at hnd
    obtain ⟨nd0, _, rfl⟩ := List.mem_map.mp hnd
    rw [TreeLayout_level_heights]
    exact normY_node_dodge opts _ nd0

/-- Witness for C5 at the scenario tree with the default options:
`d = 1` satisfies the bounds, and the offset equation holds there. -/
theorem C5_witness :
    ((1 ≤ 1 ∧ 1 ≤ (TreeLayout c2tree defaultOptions).depth) ∧
      (TreeLayout c2tree defaultOptions).level_ys 1
        = defaultOptions.distance_to_daughter
          + (TreeLayout c2tree defaultOptions).level_heights 0) :=
  ⟨⟨le_refl 1, by decide⟩,
    (C5_vertical_layout c2tree defaultOptions).2.1 1 (le_refl 1) (by decide)⟩

theorem ptree_leaves_normalize_y (opts : TreeOptions) (hs : ℕ → ℚ) :
    ∀ t : PTree,
      ptree_leaves (normalize_y opts hs t) = (ptree_leaves t).map (normY_node opts hs) := by
  intro t
  induction t using PTree.strongInd with
  | _ nd cs ih =>
    rw [normalize_y_mk, ptree_leaves, ptree_leaves]
    by_cases h : cs = []
    · subst h
      simp
    · have h2 : (cs.map (normalize_y opts hs)).isEmpty = false := by
        simp [h]
      have h3 : cs.isEmpty = false := by
        simp [h]
      rw [h2, h3, if_neg (by simp), if_neg (by simp)]
      have : ∀ (cs2 : List PTree), (∀ c ∈ cs2,
          ptree_leaves (normalize_y opts hs c) = (ptree_leaves c).map (normY_node opts hs)) →
          ptree_leavesL (cs2.map (normalize_y opts hs))
            = (ptree_leavesL cs2).map (normY_node opts hs) := by
        intro cs2 hcs2
        induction cs2 with
        | nil => simp [ptree_leavesL]
        | cons c rest ihr =>
          simp only [List.map_cons, ptree_leavesL]
          rw [hcs2 c (by simp), ihr (fun d hd => hcs2 d (by simp [hd]))]
          simp
      exact this cs ih

theorem leafdepths_rootmod (nd : NodePos) (ccs : List PTree) (w x : ℚ) :
    (ptree_leaves (PTree.mk { nd with width := w, x := x } ccs)).map (fun n => n.depth)
      = (ptree_leaves (PTree.mk nd ccs)).map (fun n => n.depth) := by
  rw [ptree_leaves, ptree_leaves]
  by_cases h : ccs.isEmpty <;> simp [h]

theorem leafdepths_assign :
    ∀ (ws : List ℚ) (cs : List PTree) (x : ℚ), ws.length = cs.length →
      (ptree_leavesL (assign_widths x ws cs)).map (fun n => n.depth)
        = (ptree_leavesL cs).map (fun n => n.depth) := by
  intro ws
  induction ws with
  | nil =>
    intro cs x h
    cases cs with
    | nil => rfl
    | cons c rest => simp at h
  | cons w ws ih =>
    intro cs x h
    cases cs with
    | nil => simp at h
    | cons c rest =>
      cases c with
      | mk nd ccs =>
        rw [assign_widths, ptree_leavesL, ptree_leavesL]
        simp only [List.map_append]
        rw [leafdepths_rootmod, ih rest (x + w) (by simpa using h)]

/-- Pass 2 does not change any leaf's stored depth. -/
theorem leafdepths_normalize_widths (opts : TreeOptions) :
    ∀ t : PTree,
      (ptree_leaves (normalize_widths opts t)).map (fun n => n.depth)
        = (ptree_leaves t).map (fun n => n.depth) := by
  intro t
  induction t using PTree.strongInd with
  | _ nd cs ih =>
    rw [normalize_widths, normalize_widthsL_map]
    set cs1 := cs.map (normalize_widths opts) with hcs1
    set ws := subtree_proportions opts cs1 with hws
    have hlen : ws.length = cs1.length := subtree_proportions_length opts cs1
    cases cs with
    | nil =>
      have : assign_widths 0 ws cs1 = [] := by
        have hl := assign_widths_length ws cs1 0 hlen
        rw [hcs1] at hl ⊢
        simp only [List.map_nil, List.length_nil] at hl ⊢
        exact List.length_eq_zero.mp hl
      rw [this]
    | cons c rest =>
      have hne : (assign_widths 0 ws cs1).isEmpty = false := by
        cases hcase : assign_widths 0 ws cs1 with
        | nil =>
          have hl := assign_widths_length ws cs1 0 hlen
          rw [hcase] at hl
          rw [hcs1] at hl
          simp at hl
        | cons a l => rfl
      rw [ptree_leaves, hne, if_neg (by simp), ptree_leaves, if_neg (by simp)]
      rw [leafdepths_assign ws cs1 0 hlen]
      have : ∀ (cs2 : List PTree), (∀ c2 ∈ cs2,
          (ptree_leaves (normalize_widths opts c2)).map (fun n => n.depth)
            = (ptree_leaves c2).map (fun n => n.depth)) →
          (ptree_leavesL (cs2.map (normalize_widths opts))).map (fun n => n.depth)
            = (ptree_leavesL cs2).map (fun n => n.depth) := by
        intro cs2 hcs2
        induction cs2 with
        | nil => rfl
        | cons c2 rest2 ihr =>
          simp only [List.map_cons, ptree_leavesL, List.map_append]
          rw [hcs2 c2 (by simp), ihr (fun d hd => hcs2 d (by simp [hd]))]
      rw [hcs1]
      exact this (c :: rest) ih

theorem mem_ptree_leavesL {nd : NodePos} :
    ∀ {cs : List PTree}, nd ∈ ptree_leavesL cs ↔ ∃ c ∈ cs, nd ∈ ptree_leaves c := by
  intro cs
  induction cs with
  | nil => simp [ptree_leavesL]
  | cons c rest ih =>
    rw [ptree_leavesL]
    simp only [List.mem_append, ih, List.mem_cons]
    constructor
    · rintro (h | ⟨c2, hc2, hn⟩)
      · exact ⟨c, Or.inl rfl, h⟩
      · exact ⟨c2, Or.inr hc2, hn⟩
    · rintro ⟨c2, hc2 | hc2, hn⟩
      · exact Or.inl (hc2 ▸ hn)
      · exact Or.inr ⟨c2, hc2, hn⟩

theorem from_label_depth (opts : TreeOptions) (label : String) (lvl : ℕ) :
    (NodePos.from_label label lvl opts).depth = lvl := by
  rw [NodePos.from_label]
  split <;> rfl

theorem from_label_height_text (opts : TreeOptions) (label : String) (lvl : ℕ) :
    (NodePos.from_label label lvl opts).height
      = if label.length = 0 then 0 else ((split_lines label).length : ℚ) := by
  rw [NodePos.from_label]
  split <;> rfl

/-- With `leaf_nodes_align`, pass 1 stores the maximum depth as every leaf's
depth attribute — the structural depth is not retained. -/
theorem build_fst_leaf_depth_align (opts : TreeOptions)
    (halign : opts.leaf_nodes_align = true) (maxd : ℕ) :
    ∀ (t : STree) (level : ℕ), ∀ nd ∈ ptree_leaves (build_fst opts maxd t level),
      nd.depth = maxd := by
  intro t
  induction t using STree.strongInd with
  | _ label cs ih =>
    intro level nd hnd
    rw [build_fst] at hnd
    rw [ptree_leaves] at hnd
    rw [build_fstL_map] at hnd
    cases cs with
    | nil =>
      simp only [List.map_nil, List.isEmpty_nil, if_true, List.mem_singleton] at hnd
      subst hnd
      show (NodePos.from_label label _ opts).depth = maxd
      rw [from_label_depth]
      simp [halign]
    | cons c rest =>
      rw [if_neg (by simp)] at hnd
      rw [mem_ptree_leavesL] at hnd
      obtain ⟨c2, hc2, hmem⟩ := hnd
      obtain ⟨c0, hc0, rfl⟩ := List.mem_map.mp hc2
      exact ih c0 hc0 (level + 1) nd hmem

/-- The threaded `level_heights` aggregate only grows during pass 1. -/
theorem build_hs_mono (opts : TreeOptions) (maxd : ℕ) :
    ∀ (t : STree) (level : ℕ) (hs : ℕ → ℚ) (j : ℕ),
      hs j ≤ (build_initial opts maxd t level hs).2 j := by
  intro t
  induction t using STree.strongInd with
  | _ label cs ih =>
    intro level hs j
    rw [build_initial]
    have hlist : ∀ (cs2 : List STree), (∀ c ∈ cs2, ∀ (lv : ℕ) (h2 : ℕ → ℚ) (j2 : ℕ),
        h2 j2 ≤ (build_initial opts maxd c lv h2).2 j2) →
        ∀ (lv : ℕ) (h2 : ℕ → ℚ) (j2 : ℕ),
          h2 j2 ≤ (build_initialL opts maxd cs2 lv h2).2 j2 := by
      intro cs2 hcs2
      induction cs2 with
      | nil => intro lv h2 j2; rw [build_initialL]
      | cons c rest ihr =>
        intro lv h2 j2
        rw [build_initialL]
        calc h2 j2 ≤ (build_initial opts maxd c lv h2).2 j2 := hcs2 c (by simp) lv h2 j2
          _ ≤ _ := ihr (fun d hd => hcs2 d (by simp [hd])) lv _ j2
    refine le_trans ?_ (hlist cs ih (level + 1) _ j)
    by_cases hj : j = (if (cs.isEmpty && opts.leaf_nodes_align) = true then maxd else level)
    · rw [if_pos hj, hj]
      exact le_max_left _ _
    · rw [if_neg hj]

theorem buildL_hs_mono (opts : TreeOptions) (maxd : ℕ) :
    ∀ (cs : List STree) (lv : ℕ) (hs : ℕ → ℚ) (j : ℕ),
      hs j ≤ (build_initialL opts maxd cs lv hs).2 j := by
  intro cs
  induction cs with
  | nil => intro lv hs j; rw [build_initialL]
  | cons c rest ih =>
    intro lv hs j
    rw [build_initialL]
    exact le_trans (build_hs_mono opts maxd c lv hs j) (ih lv _ j)

/-- With `leaf_nodes_align`, every leaf's height is aggregated into the
`level_heights` entry at the maximum depth. -/
theorem build_leaf_height_align (opts : TreeOptions)
    (halign : opts.leaf_nodes_align = true) (maxd : ℕ) :
    ∀ (t : STree) (level : ℕ) (hs : ℕ → ℚ),
      ∀ nd ∈ ptree_leaves (build_initial opts maxd t level hs).1,
        nd.height ≤ (build_initial opts maxd t level hs).2 maxd := by
  intro t
  induction t using STree.strongInd with
  | _ label cs ih =>
    intro level hs nd hnd
    rw [build_initial] at hnd ⊢
    simp only at hnd ⊢
    rw [ptree_leaves] at hnd
    cases cs with
    | nil =>
      rw [build_initialL] at hnd ⊢
      simp only [List.isEmpty_nil, if_true, List.mem_singleton] at hnd
      subst hnd
      show (NodePos.from_label label _ opts).height ≤ _
      simp only [List.isEmpty_nil, halign, Bool.and_true, if_true]
      exact le_max_right _ _
    | cons c rest =>
      have hne : (build_initialL opts maxd (c :: rest) (level + 1)
          (fun j => if j = (if ((c :: rest).isEmpty && opts.leaf_nodes_align) = true
            then maxd else level)
          then max (hs (if ((c :: rest).isEmpty && opts.leaf_nodes_align) = true
            then maxd else level))
            (NodePos.from_label label (if ((c :: rest).isEmpty && opts.leaf_nodes_align) = true
              then maxd else level) opts).height
          else hs j)).1.isEmpty = false := by
        rw [build_initialL_fst_cons]
        rfl
      rw [hne, if_neg (by simp)] at hnd
      -- distribute over the per-child builds
      have hlist : ∀ (cs2 : List STree), (∀ c2 ∈ cs2, ∀ (lv : ℕ) (h2 : ℕ → ℚ),
          ∀ nd2 ∈ ptree_leaves (build_initial opts maxd c2 lv h2).1,
            nd2.height ≤ (build_initial opts maxd c2 lv h2).2 maxd) →
          ∀ (lv : ℕ) (h2 : ℕ → ℚ),
            ∀ nd2 ∈ ptree_leavesL (build_initialL opts maxd cs2 lv h2).1,
              nd2.height ≤ (build_initialL opts maxd cs2 lv h2).2 maxd := by
        intro cs2 hcs2
        induction cs2 with
        | nil => intro lv h2 nd2 hnd2; rw [build_initialL] at hnd2; simp [ptree_leavesL] at hnd2
        | cons c2 rest2 ihr =>
          intro lv h2 nd2 hnd2
          rw [build_initialL_fst_cons] at hnd2
          rw [ptree_leavesL, List.mem_append] at hnd2
          rw [build_initialL]
          rcases hnd2 with hnd2 | hnd2
          · exact le_trans (hcs2 c2 (by simp) lv h2 nd2 hnd2)
              (buildL_hs_mono opts maxd rest2 lv _ maxd)
          · exact ihr (fun d hd => hcs2 d (by simp [hd])) lv _ nd2 hnd2
      exact hlist (c :: rest) ih (level + 1) _ nd hnd

/-- C6 (amended): when `leaf_nodes_align` is enabled, every leaf's height
contributes to the level-height aggregate of the tree's maximum depth level
regardless of the leaf's structural depth (conjunct 2); and — the amendment
forced by the counterexample — the leaf's positioned node's depth attribute
is also set to the maximum depth, rather than retaining its structural
distance from the root (conjunct 1). -/
theorem C6_leaf_nodes_align (t : STree) (opts : TreeOptions)
    (halign : opts.leaf_nodes_align = true) :
    (∀ nd ∈ ptree_leaves (TreeLayout t opts).layout,
       nd.depth = (TreeLayout t opts).depth) ∧
    (∀ nd ∈ ptree_leaves
        (build_initial opts ((TreeLayout t opts).depth) t 0 (fun _ => 0)).1,
       nd.height ≤ (TreeLayout t opts).level_heights ((TreeLayout t opts).depth)) := by
  constructor
  · intro nd hnd
    rw [TreeLayout_layout_eq, ptree_leaves_normalize_y] at hnd
    obtain ⟨nd0, hnd0, rfl⟩ := List.mem_map.mp hnd
    rw [(normY_node_fields opts _ nd0).2.2.1]
    -- transfer depth through pass 2 via the depth-map equality
    have hdm := leafdepths_normalize_widths opts
      (PTree.mk { (build_fst opts (tree_depth t - 1) t 0).node with width := 100, x := 0 }
        (build_fst opts (tree_depth t - 1) t 0).children)
    have hmem : nd0.depth ∈ (ptree_leaves (normalize_widths opts
        (PTree.mk { (build_fst opts (tree_depth t - 1) t 0).node with width := 100, x := 0 }
          (build_fst opts (tree_depth t - 1) t 0).children))).map (fun n => n.depth) :=
      List.mem_map.mpr ⟨nd0, hnd0, rfl⟩
    rw [hdm] at hmem
    -- the root override does not change leaf depths
    cases hB : build_fst opts (tree_depth t - 1) t 0 with
    | mk bn bcs =>
      rw [hB] at hmem
      simp only [PTree.node_mk, PTree.children_mk] at hmem
      rw [leafdepths_rootmod] at hmem
      rw [← hB] at hmem
      obtain ⟨nd1, hnd1, hdep⟩ := List.mem_map.mp hmem
      rw [TreeLayout_depth, ← hdep]
      exact build_fst_leaf_depth_align opts halign (tree_depth t - 1) t 0 nd1 hnd1
  · intro nd hnd
    rw [TreeLayout_level_heights, TreeLayout_depth] at *
    exact build_leaf_height_align opts halign (tree_depth t - 1) t 0 (fun _ => 0) nd hnd

/-- C6 counterexample to the claim as stated: in `c6tree`, the leaf `"a"` at
path `[0]` has structural depth 1 (its distance from the root), but with
`leaf_nodes_align` its positioned node's depth attribute is 2, the maximum
depth — the structural depth is not kept. -/
theorem C6_counterexample :
    c6sub.node.depth = 2 ∧ ([0] : List ℤ).length = 1 ∧ (2 : ℕ) ≠ 1 := by
  refine ⟨?_, rfl, by norm_num⟩
  rfl

/-- Witness for C6 at the concrete fixture. -/
theorem C6_witness :
    (c6opts.leaf_nodes_align = true) ∧
    (∀ nd ∈ ptree_leaves (TreeLayout c6tree c6opts).layout,
       nd.depth = (TreeLayout c6tree c6opts).depth) :=
  ⟨rfl, (C6_leaf_nodes_align c6tree c6opts rfl).1⟩

theorem pyIndex_mem {α : Type} {l : List α} {i : ℤ} {a : α} (h : pyIndex l i = some a) :
    a ∈ l := by
  unfold pyIndex at h
  cases hn : pyNorm l.length i with
  | none => rw [hn] at h; simp at h
  | some j => rw [hn] at h; exact List.getElem?_mem h

theorem pyIndex_zero_none {α : Type} {l : List α} : pyIndex l 0 = none ↔ l = [] := by
  unfold pyIndex pyNorm
  cases l with
  | nil => simp
  | cons a rest => simp

theorem pyIndex_negone_none {α : Type} {l : List α} : pyIndex l (-1) = none ↔ l = [] := by
  cases l with
  | nil => simp [pyIndex, pyNorm]
  | cons a rest =>
    constructor
    · intro h
      exfalso
      unfold pyIndex pyNorm at h
      simp only [List.length_cons] at h
      rw [if_neg (by norm_num)] at h
      rw [if_pos (by push_cast; omega)] at h
      push_cast at h
      have ht : ((-1 : ℤ) + ((rest.length : ℤ) + 1)).toNat = rest.length := by omega
      rw [ht] at h
      have hg := List.getElem?_eq_getElem (l := a :: rest) (n := rest.length) (by simp)
      rw [hg] at h
      simp at h
    · intro h
      simp at h

theorem ptree_height_pos (t : PTree) : 1 ≤ ptree_height t := by
  cases t with
  | mk nd cs => rw [ptree_height]; omega

theorem ptree_height_child_le {c : PTree} :
    ∀ {cs : List PTree}, c ∈ cs → ptree_height c ≤ ptree_heightL cs := by
  intro cs
  induction cs with
  | nil => intro h; simp at h
  | cons a rest ih =>
    intro h
    rw [ptree_heightL]
    rcases List.mem_cons.mp h with rfl | h
    · exact le_max_left _ _
    · exact le_trans (ih h) (le_max_right _ _)

theorem resolveIn_height :
    ∀ (path : List ℤ) (t r : PTree), resolveIn t path = some r →
      path.length + ptree_height r ≤ ptree_height t := by
  intro path
  induction path with
  | nil =>
    intro t r h
    rw [resolveIn] at h
    cases h
    simp
  | cons c rest ih =>
    intro t r h
    rw [resolveIn] at h
    cases hidx : pyIndex t.children c with
    | none => rw [hidx] at h; simp at h
    | some child =>
      rw [hidx] at h
      have h1 := ih child r h
      have h2 : ptree_height child ≤ ptree_heightL t.children := ptree_height_child_le (pyIndex_mem hidx)
      cases t with
      | mk nd cs =>
        rw [ptree_height]
        simp only [PTree.children_mk] at h2
        simp only [List.length_cons]
        omega

theorem resolveIn_append :
    ∀ (p q : List ℤ) (t : PTree),
      resolveIn t (p ++ q) = (resolveIn t p).bind (fun x => resolveIn x q) := by
  intro p
  induction p with
  | nil => intro q t; rw [List.nil_append, resolveIn]; rfl
  | cons c rest ih =>
    intro q t
    rw [List.cons_append, resolveIn, resolveIn]
    cases hidx : pyIndex t.children c with
    | none => rfl
    | some child => exact ih q child

theorem layout_iter_ok_of_resolve :
    ∀ (path : List ℤ) (t r : PTree), resolveIn t path = some r →
      ∀ i : ℕ, ∃ l, layout_iter_from t path i = .ok l ∧ l.getLast? = some r := by
  intro path
  induction path with
  | nil =>
    intro t r h i
    rw [resolveIn] at h
    cases h
    exact ⟨[t], rfl, rfl⟩
  | cons c rest ih =>
    intro t r h i
    rw [resolveIn] at h
    cases hidx : pyIndex t.children c with
    | none => rw [hidx] at h; simp at h
    | some child =>
      rw [hidx] at h
      obtain ⟨l, hl, hlast⟩ := ih child r h (i + 1)
      refine ⟨t :: l, ?_, ?_⟩
      · rw [layout_iter_from]
        simp only [hidx, hl]
      · rw [List.getLast?_cons, hlast]
        cases l with
        | nil => simp at hlast
        | cons a rest2 => rfl

theorem resolve_of_layout_iter :
    ∀ (path : List ℤ) (t : PTree) (i : ℕ) (l : List PTree),
      layout_iter_from t path i = .ok l →
      ∃ r, resolveIn t path = some r ∧ l.getLast? = some r := by
  intro path
  induction path with
  | nil =>
    intro t i l h
    rw [layout_iter_from] at h
    cases h
    exact ⟨t, rfl, rfl⟩
  | cons c rest ih =>
    intro t i l h
    rw [layout_iter_from] at h
    cases hidx : pyIndex t.children c with
    | none => rw [hidx] at h; simp at h
    | some child =>
      rw [hidx] at h
      have h2 : (match layout_iter_from child rest (i + 1) with
          | Except.ok l2 => Except.ok (t :: l2)
          | Except.error e => Except.error e) = Except.ok l := h
      clear h
      cases hrec : layout_iter_from child rest (i + 1) with
      | error e => rw [hrec] at h2; simp at h2
      | ok l2 =>
        rw [hrec] at h2
        cases h2
        obtain ⟨r, hr, hlast⟩ := ih child (i + 1) l2 hrec
        refine ⟨r, by rw [resolveIn]; simp only [hidx]; exact hr, ?_⟩
        rw [List.getLast?_cons, hlast]
        cases l2 with
        | nil => simp at hlast
        | cons a rest2 => rfl

/-- `sublayout` succeeds with exactly the subtree that direct path
resolution finds. -/
theorem sublayoutE_ok_iff (s : TreeState) (path : List ℤ) (r : PTree) :
    s.sublayoutE path = .ok r ↔ resolveIn s.layout path = some r := by
  unfold TreeState.sublayoutE TreeState.layout_iterE
  constructor
  · intro h
    cases hit : layout_iter_from s.layout path 0 with
    | error e => rw [hit] at h; simp at h
    | ok l =>
      rw [hit] at h
      obtain ⟨r2, hr2, hlast⟩ := resolve_of_layout_iter path s.layout 0 l hit
      have h2 : (match l.getLast? with
          | some a => Except.ok a
          | none => Except.error PyErr.internalErr) = Except.ok r := h
      rw [hlast] at h2
      cases h2
      exact hr2
  · intro h
    obtain ⟨l, hl, hlast⟩ := layout_iter_ok_of_resolve path s.layout r h 0
    rw [hl]
    show (match l.getLast? with
        | some a => Except.ok a
        | none => Except.error PyErr.internalErr) = Except.ok r
    rw [hlast]

theorem ptree_height_mk (nd : NodePos) (cs : List PTree) :
    ptree_height (PTree.mk nd cs) = ptree_heightL cs + 1 := by
  rw [ptree_height]

theorem ptree_heightL_assign :
    ∀ (ws : List ℚ) (cs : List PTree) (x : ℚ), ws.length = cs.length →
      ptree_heightL (assign_widths x ws cs) = ptree_heightL cs := by
  intro ws
  induction ws with
  | nil =>
    intro cs x h
    cases cs with
    | nil => rfl
    | cons c rest => simp at h
  | cons w ws ih =>
    intro cs x h
    cases cs with
    | nil => simp at h
    | cons c rest =>
      cases c with
      | mk nd ccs =>
        rw [assign_widths, ptree_heightL, ptree_heightL, ptree_height_mk, ptree_height_mk]
        rw [ih rest (x + w) (by simpa using h)]

theorem ptree_height_normalize_widths (opts : TreeOptions) :
    ∀ t : PTree, ptree_height (normalize_widths opts t) = ptree_height t := by
  intro t
  induction t using PTree.strongInd with
  | _ nd cs ih =>
    rw [normalize_widths, normalize_widthsL_map, ptree_height_mk, ptree_height_mk]
    rw [ptree_heightL_assign _ _ 0 (by rw [subtree_proportions_length])]
    congr 1
    induction cs with
    | nil => rfl
    | cons c rest ihr =>
      simp only [List.map_cons, ptree_heightL]
      rw [ih c (by simp), ihr (fun d hd => ih d (by simp [hd]))]

theorem ptree_height_normalize_y (opts : TreeOptions) (hs : ℕ → ℚ) :
    ∀ t : PTree, ptree_height (normalize_y opts hs t) = ptree_height t := by
  intro t
  induction t using PTree.strongInd with
  | _ nd cs ih =>
    rw [normalize_y_mk, ptree_height_mk, ptree_height_mk]
    congr 1
    induction cs with
    | nil => rfl
    | cons c rest ihr =>
      simp only [List.map_cons, ptree_heightL]
      rw [ih c (by simp), ihr (fun d hd => ih d (by simp [hd]))]

theorem ptree_height_build_fst (opts : TreeOptions) (maxd : ℕ) :
    ∀ (t : STree) (level : ℕ), ptree_height (build_fst opts maxd t level) = tree_depth t := by
  intro t
  induction t using STree.strongInd with
  | _ label cs ih =>
    intro level
    rw [build_fst, ptree_height_mk, tree_depth, build_fstL_map]
    congr 1
    induction cs with
    | nil => rfl
    | cons c rest ihr =>
      simp only [List.map_cons, ptree_heightL, tree_depthL]
      rw [ih c (by simp) (level + 1), ihr (fun d hd => ih d (by simp [hd]))]

theorem tree_depth_pos (t : STree) : 1 ≤ tree_depth t := by
  cases t with
  | node l cs => rw [tree_depth]; omega

/-- The positioned tree mirrors the input tree's shape: its height is the
input's depth. -/
theorem TreeLayout_height_layout (t : STree) (opts : TreeOptions) :
    ptree_height (TreeLayout t opts).layout = tree_depth t := by
  rw [TreeLayout_layout_eq, ptree_height_normalize_y, ptree_height_normalize_widths]
  cases hB : build_fst opts (tree_depth t - 1) t 0 with
  | mk bn bcs =>
    rw [PTree.node_mk, PTree.children_mk, ptree_height_mk]
    have := ptree_height_build_fst opts (tree_depth t - 1) t 0
    rw [hB, ptree_height_mk] at this
    exact this

theorem nmost_go_append :
    ∀ (fuel : ℕ) (t : PTree) (p : List ℤ) (n : ℤ),
      nmost_go fuel t p n = p ++ nmost_go fuel t [] n := by
  intro fuel
  induction fuel with
  | zero => intro t p n; rw [nmost_go, nmost_go]; simp
  | succ fuel ih =>
    intro t p n
    cases t with
    | mk nd cs =>
      rw [nmost_go, nmost_go]
      cases hidx : pyIndex cs n with
      | none => simp
      | some c =>
        simp only
        rw [ih c (p ++ [n]) n, ih c ([] ++ [n]) n]
        simp

/-- The descent loop of `nmost_path` (for daughter index 0 or -1, the two
the source uses) reaches a leaf, with at most `height - 1` steps, whenever
the fuel covers the subtree height. -/
theorem nmost_go_spec (n : ℤ) (hn : n = 0 ∨ n = -1) :
    ∀ (fuel : ℕ) (t : PTree), ptree_height t ≤ fuel →
      ∃ r : PTree, resolveIn t (nmost_go fuel t [] n) = some r ∧ r.children = [] ∧
        (nmost_go fuel t [] n).length + 1 ≤ ptree_height t := by
  intro fuel
  induction fuel with
  | zero =>
    intro t h
    have := ptree_height_pos t
    omega
  | succ fuel ih =>
    intro t h
    cases t with
    | mk nd cs =>
      rw [nmost_go]
      cases hidx : pyIndex cs n with
      | none =>
        have hcs : cs = [] := by
          rcases hn with rfl | rfl
          · exact pyIndex_zero_none.mp hidx
          · exact pyIndex_negone_none.mp hidx
        refine ⟨PTree.mk nd cs, rfl, by rw [PTree.children_mk, hcs], ?_⟩
        have := ptree_height_pos (PTree.mk nd cs)
        simp only [List.length_nil]
        omega
      | some c =>
        simp only
        have hmem : c ∈ cs := pyIndex_mem hidx
        have hhc : ptree_height c ≤ fuel := by
          have h1 : ptree_height c ≤ ptree_heightL cs := ptree_height_child_le hmem
          rw [ptree_height_mk] at h
          omega
        obtain ⟨r, hr, hrc, hlen⟩ := ih c hhc
        simp only [List.nil_append]
        rw [nmost_go_append fuel c [n] n]
        refine ⟨r, ?_, hrc, ?_⟩
        · have : ([n] ++ nmost_go fuel c [] n) = n :: nmost_go fuel c [] n := rfl
          rw [this, resolveIn]
          simp only [PTree.children_mk, hidx]
          exact hr
        · rw [ptree_height_mk]
          have h1 : ptree_height c ≤ ptree_heightL cs := ptree_height_child_le hmem
          simp only [List.length_append, List.length_singleton]
          omega

/-- C10: from every valid starting path, `leftmost_path` and
`rightmost_path` terminate (they are total functions of the layout, the
source's loop being bounded by the subtree height) and return a path whose
final node is a leaf; the returned path's length never exceeds the tree's
maximum depth, so the descent performs at most `treeDepth` steps. -/
theorem C10_nmost_terminates_at_leaf (t : STree) (opts : TreeOptions) (path : List ℤ)
    (sub : PTree) (hres : (TreeLayout t opts).sublayoutE path = .ok sub) :
    (∃ p leaf, (TreeLayout t opts).leftmost_path path = .ok p ∧
        (TreeLayout t opts).sublayoutE p = .ok leaf ∧ leaf.children = [] ∧
        p.length ≤ (TreeLayout t opts).depth ∧
        p.length - path.length ≤ (TreeLayout t opts).depth) ∧
    (∃ p leaf, (TreeLayout t opts).rightmost_path path = .ok p ∧
        (TreeLayout t opts).sublayoutE p = .ok leaf ∧ leaf.children = [] ∧
        p.length ≤ (TreeLayout t opts).depth ∧
        p.length - path.length ≤ (TreeLayout t opts).depth) := by
  have main : ∀ n : ℤ, n = 0 ∨ n = -1 →
      ∃ p leaf, (TreeLayout t opts).nmost_path path n = .ok p ∧
        (TreeLayout t opts).sublayoutE p = .ok leaf ∧ leaf.children = [] ∧
        p.length ≤ (TreeLayout t opts).depth ∧
        p.length - path.length ≤ (TreeLayout t opts).depth := by
    intro n hn
    have hresolve : resolveIn (TreeLayout t opts).layout path = some sub :=
      (sublayoutE_ok_iff _ path sub).mp hres
    have hheight : path.length + ptree_height sub ≤ tree_depth t := by
      have h1 := resolveIn_height path (TreeLayout t opts).layout sub hresolve
      rwa [TreeLayout_height_layout] at h1
    have hdep : (TreeLayout t opts).depth = tree_depth t - 1 := TreeLayout_depth t opts
    have hlt : path.length < (TreeLayout t opts).depth + 1 := by
      have h1 := ptree_height_pos sub
      have h2 := tree_depth_pos t
      omega
    have hnm : (TreeLayout t opts).nmost_path path n = .ok (nmost_descend sub path n) := by
      unfold TreeState.nmost_path
      rw [hres]
      show Except.ok (if path.length < (TreeLayout t opts).depth + 1
        then nmost_descend sub path n else path) = _
      rw [if_pos hlt]
    obtain ⟨leaf, hleaf, hleafc, hlen⟩ := nmost_go_spec n hn (ptree_height sub) sub (le_refl _)
    have hdesc : nmost_descend sub path n
        = path ++ nmost_go (ptree_height sub) sub [] n := by
      unfold nmost_descend
      exact nmost_go_append _ sub path n
    refine ⟨path ++ nmost_go (ptree_height sub) sub [] n, leaf, by rw [hnm, hdesc], ?_, hleafc,
      ?_, ?_⟩
    · rw [sublayoutE_ok_iff, resolveIn_append, hresolve]
      simpa using hleaf
    · simp only [List.length_append]
      have h2 := tree_depth_pos t
      omega
    · simp only [List.length_append]
      have h2 := tree_depth_pos t
      omega
  exact ⟨main 0 (Or.inl rfl), main (-1) (Or.inr rfl)⟩

/-- Witness for C10: the path `[0]` is valid in the scenario layout. -/
theorem C10_witness :
    (c10L.sublayoutE [0] = .ok (okOr (c10L.sublayoutE [0]) c10L.layout)) ∧
    (∃ p leaf, c10L.leftmost_path [0] = .ok p ∧ c10L.sublayoutE p = .ok leaf ∧
      leaf.children = [] ∧ p.length ≤ c10L.depth ∧
      p.length - ([0] : List ℤ).length ≤ c10L.depth) := by
  have h : c10L.sublayoutE [0] = .ok (okOr (c10L.sublayoutE [0]) c10L.layout) := rfl
  exact ⟨h, (C10_nmost_terminates_at_leaf c2tree defaultOptions [0] _ h).1⟩

theorem layout_iter_error_shape :
    ∀ (path : List ℤ) (t : PTree) (i : ℕ) (e : PyErr),
      layout_iter_from t path i = .error e → ∃ j c, e = PyErr.invalidPath j c := by
  intro path
  induction path with
  | nil => intro t i e h; rw [layout_iter_from] at h; simp at h
  | cons c rest ih =>
    intro t i e h
    rw [layout_iter_from] at h
    cases hidx : pyIndex t.children c with
    | none =>
      rw [hidx] at h
      simp only [Except.error.injEq] at h
      exact ⟨i, c, h.symm⟩
    | some child =>
      rw [hidx] at h
      have h2 : (match layout_iter_from child rest (i + 1) with
          | Except.ok l2 => Except.ok (t :: l2)
          | Except.error e2 => Except.error e2) = Except.error e := h
      cases hrec : layout_iter_from child rest (i + 1) with
      | error e2 =>
        rw [hrec] at h2
        simp only [Except.error.injEq] at h2
        subst h2
        exact ih child (i + 1) e2 hrec
      | ok l2 => rw [hrec] at h2; simp at h2

theorem layout_iter_ok_nonempty :
    ∀ (path : List ℤ) (t : PTree) (i : ℕ) (l : List PTree),
      layout_iter_from t path i = .ok l → l ≠ [] := by
  intro path t i l h
  obtain ⟨r, _, hlast⟩ := resolve_of_layout_iter path t i l h
  intro hnil
  rw [hnil] at hlast
  simp at hlast

theorem sublayoutE_error_shape (s : TreeState) (p : List ℤ) (e : PyErr)
    (h : s.sublayoutE p = .error e) : ∃ j c, e = PyErr.invalidPath j c := by
  unfold TreeState.sublayoutE TreeState.layout_iterE at h
  cases hit : layout_iter_from s.layout p 0 with
  | error e2 =>
    rw [hit] at h
    simp only [Except.error.injEq] at h
    subst h
    exact layout_iter_error_shape p s.layout 0 e2 hit
  | ok l =>
    rw [hit] at h
    have hne := layout_iter_ok_nonempty p s.layout 0 l hit
    have h2 : (match l.getLast? with
        | some a => Except.ok a
        | none => Except.error PyErr.internalErr) = Except.error e := h
    cases hlast : l.getLast? with
    | some a => rw [hlast] at h2; simp at h2
    | none =>
      exfalso
      rw [List.getLast?_eq_none_iff] at hlast
      exact hne hlast

theorem sublayoutE_error_of_iter (s : TreeState) (p : List ℤ) (e : PyErr)
    (h : s.layout_iterE p = .error e) : s.sublayoutE p = .error e := by
  unfold TreeState.sublayoutE
  rw [h]

theorem node_x_valsE_error_of_iter (s : TreeState) (p : List ℤ) (e : PyErr)
    (h : s.layout_iterE p = .error e) : s.node_x_valsE p = .error e := by
  unfold TreeState.node_x_valsE
  rw [h]

theorem node_x_valsE_ok_of_valid (s : TreeState) (p : List ℤ) (r : PTree)
    (h : resolveIn s.layout p = some r) : ∃ v, s.node_x_valsE p = .ok v := by
  obtain ⟨l, hl, _⟩ := layout_iter_ok_of_resolve p s.layout r h 0
  unfold TreeState.node_x_valsE TreeState.layout_iterE
  rw [hl]
  exact ⟨_, rfl⟩

theorem nmost_path_ok_valid (s : TreeState) (p : List ℤ) (sub : PTree)
    (h : s.sublayoutE p = .ok sub) (n : ℤ) (hn : n = 0 ∨ n = -1) :
    ∃ p2 r2, s.nmost_path p n = .ok p2 ∧ resolveIn s.layout p2 = some r2 := by
  have hres : resolveIn s.layout p = some sub := (sublayoutE_ok_iff s p sub).mp h
  unfold TreeState.nmost_path
  rw [h]
  by_cases hlt : p.length < s.depth + 1
  · refine ⟨nmost_descend sub p n, ?_⟩
    obtain ⟨leaf, hleaf, _, _⟩ := nmost_go_spec n hn (ptree_height sub) sub (le_refl _)
    refine ⟨leaf, ?_, ?_⟩
    · show Except.ok (if p.length < s.depth + 1 then nmost_descend sub p n else p) = _
      rw [if_pos hlt]
    · unfold nmost_descend
      rw [nmost_go_append, resolveIn_append, hres]
      simpa using hleaf
  · refine ⟨p, sub, ?_, hres⟩
    show Except.ok (if p.length < s.depth + 1 then nmost_descend sub p n else p) = _
    rw [if_neg hlt]

/-- `subtree_bounds` succeeds on every valid path. -/
theorem subtree_boundsE_ok_of_valid (s : TreeState) (p : List ℤ) (sub : PTree)
    (h : s.sublayoutE p = .ok sub) : ∃ v, s.subtree_boundsE p = .ok v := by
  obtain ⟨lp, rl, hlp, hlpres⟩ := nmost_path_ok_valid s p sub h 0 (Or.inl rfl)
  obtain ⟨rp, rr, hrp, hrpres⟩ := nmost_path_ok_valid s p sub h (-1) (Or.inr rfl)
  obtain ⟨xv, hxv⟩ := node_x_valsE_ok_of_valid s lp rl hlpres
  obtain ⟨rv, hrv⟩ := node_x_valsE_ok_of_valid s rp rr hrpres
  unfold TreeState.subtree_boundsE TreeState.leftmost_path TreeState.rightmost_path
  rw [h]
  simp only [bind, Except.bind]
  rw [hlp, hrp]
  simp only [hxv, hrv]
  exact ⟨_, rfl⟩

theorem common_parent_prefix :
    ∀ (p1 p2 : List ℤ), (∃ r, p1 = common_parent p1 p2 ++ r) ∧
      (∃ r, p2 = common_parent p1 p2 ++ r) := by
  intro p1
  induction p1 with
  | nil =>
    intro p2
    cases p2 with
    | nil => exact ⟨⟨[], rfl⟩, ⟨[], rfl⟩⟩
    | cons b bs => exact ⟨⟨[], rfl⟩, ⟨b :: bs, rfl⟩⟩
  | cons a as1 ih =>
    intro p2
    cases p2 with
    | nil => exact ⟨⟨a :: as1, rfl⟩, ⟨[], rfl⟩⟩
    | cons b bs =>
      rw [common_parent]
      by_cases hab : a = b
      · rw [if_pos hab]
        obtain ⟨⟨r1, hr1⟩, ⟨r2, hr2⟩⟩ := ih bs
        subst hab
        exact ⟨⟨r1, by rw [List.cons_append, ← hr1]⟩, ⟨r2, by rw [List.cons_append, ← hr2]⟩⟩
      · rw [if_neg hab]
        exact ⟨⟨a :: as1, rfl⟩, ⟨b :: bs, rfl⟩⟩

theorem resolveIn_prefix {t r : PTree} {p q : List ℤ}
    (h : resolveIn t (p ++ q) = some r) : ∃ m, resolveIn t p = some m := by
  rw [resolveIn_append] at h
  cases hm : resolveIn t p with
  | none => rw [hm] at h; simp at h
  | some m => exact ⟨m, rfl⟩

theorem leaf_offset_ok :
    ∀ (rel : List ℤ) (t r : PTree), resolveIn t rel = some r →
      ∃ off, leaf_offset t rel = some off := by
  intro rel
  induction rel with
  | nil =>
    intro t r _
    cases t with
    | mk nd cs => exact ⟨0, rfl⟩
  | cons i rest ih =>
    intro t r h
    cases t with
    | mk nd cs =>
      rw [resolveIn] at h
      rw [leaf_offset]
      simp only [PTree.children_mk] at h
      unfold pyIndex at h
      cases hn : pyNorm cs.length i with
      | none => rw [hn] at h; simp at h
      | some j =>
        simp only [hn] at h ⊢
        cases hj : cs[j]? with
        | none => simp [hj] at h
        | some c =>
          simp only [hj] at h ⊢
          obtain ⟨off, hoff⟩ := ih c r h
          simp only [hoff]
          exact ⟨_, rfl⟩

/-- `deepest_intervening_leaf` succeeds whenever both paths are valid
(the `internalErr` branch is dead). -/
theorem deepest_intervening_ok (s : TreeState) (p1 p2 : List ℤ) (s1 s2 : PTree)
    (h1 : s.sublayoutE p1 = .ok s1) (h2 : s.sublayoutE p2 = .ok s2) :
    ∃ d, s.deepest_intervening p1 p2 = .ok d := by
  have hr1 : resolveIn s.layout p1 = some s1 := (sublayoutE_ok_iff s p1 s1).mp h1
  have hr2 : resolveIn s.layout p2 = some s2 := (sublayoutE_ok_iff s p2 s2).mp h2
  obtain ⟨⟨r1, hp1⟩, ⟨r2, hp2⟩⟩ := common_parent_prefix p1 p2
  set branch := common_parent p1 p2 with hbranch
  obtain ⟨subB, hsubB⟩ : ∃ m, resolveIn s.layout branch = some m := by
    apply resolveIn_prefix (q := r1)
    rw [← hp1]
    exact hr1
  have hsubBE : s.sublayoutE branch = .ok subB := (sublayoutE_ok_iff s branch subB).mpr hsubB
  have hrel1 : resolveIn subB (p1.drop branch.length) = some s1 := by
    have : p1.drop branch.length = r1 := by rw [hp1]; simp
    rw [this]
    have hc := hr1
    rw [hp1, resolveIn_append, hsubB] at hc
    simpa using hc
  have hrel2 : resolveIn subB (p2.drop branch.length) = some s2 := by
    have : p2.drop branch.length = r2 := by rw [hp2]; simp
    rw [this]
    have hc := hr2
    rw [hp2, resolveIn_append, hsubB] at hc
    simpa using hc
  obtain ⟨off1, hoff1⟩ := leaf_offset_ok _ subB s1 hrel1
  obtain ⟨off2, hoff2⟩ := leaf_offset_ok _ subB s2 hrel2
  unfold TreeState.deepest_intervening
  simp only [bind, Except.bind]
  rw [← hbranch, hsubBE, h1, h2]
  simp only [hoff1, hoff2]
  exact ⟨_, rfl⟩

/-- `movement_arrow` succeeds on valid paths, raising `extra_y` to
exactly `max extra_y 2`, recording exactly one more placed arrow, and
leaving the geometry fields untouched. -/
theorem movement_arrowE_ok_of_valid (s : TreeState) (p1 p2 : List ℤ) (s1 s2 : PTree)
    (h1 : s.sublayoutE p1 = .ok s1) (h2 : s.sublayoutE p2 = .ok s2) :
    ∃ s3, s.movement_arrowE p1 p2 = .ok s3 ∧ s3.extra_y = max s.extra_y 2 ∧
      s3.layout = s.layout ∧ s3.depth = s.depth ∧ s3.options = s.options ∧
      s3.level_heights = s.level_heights ∧ s3.level_ys = s.level_ys ∧
      s3.max_width = s.max_width ∧
      s3.movement_arrows.length = s.movement_arrows.length + 1 ∧
      (∃ new, new ≠ [] ∧ s3.annots = s.annots ++ new) := by
  obtain ⟨b1, hb1⟩ := subtree_boundsE_ok_of_valid s p1 s1 h1
  obtain ⟨b2, hb2⟩ := subtree_boundsE_ok_of_valid s p2 s2 h2
  obtain ⟨d, hd⟩ := deepest_intervening_ok s p1 p2 s1 s2 h1 h2
  obtain ⟨b1x, b1y, b1w, b1h⟩ := b1
  obtain ⟨b2x, b2y, b2w, b2h⟩ := b2
  obtain ⟨k, hk, _, _⟩ := movement_find_y_spec s.movement_arrows
    (min (b1x + b1w / 2) (b2x + b2w / 2)) (max (b1x + b1w / 2) (b2x + b2w / 2))
    (s.y_distance 0 d + s.level_heights d + 6/5)
  unfold TreeState.movement_arrowE TreeState.movement_default_y
  simp only [bind, Except.bind, pure, Except.pure]
  simp only [hb1, hb2, hd, hk]
  refine ⟨_, rfl, rfl, rfl, rfl, rfl, rfl, rfl, rfl, by simp, ?_⟩
  exact ⟨_, by simp, rfl⟩

theorem subtree_boundsE_error_of_sub (s : TreeState) (p : List ℤ) (e : PyErr)
    (h : s.sublayoutE p = .error e) : s.subtree_boundsE p = .error e := by
  unfold TreeState.subtree_boundsE
  simp only [bind, Except.bind, h]

theorem subtree_boundsE_error_shape (s : TreeState) (p : List ℤ) (e : PyErr)
    (h : s.subtree_boundsE p = .error e) : ∃ j d, e = PyErr.invalidPath j d := by
  cases hsub : s.sublayoutE p with
  | error e2 =>
    have := subtree_boundsE_error_of_sub s p e2 hsub
    rw [this] at h
    simp only [Except.error.injEq] at h
    subst h
    exact sublayoutE_error_shape s p e2 hsub
  | ok sub =>
    obtain ⟨v, hv⟩ := subtree_boundsE_ok_of_valid s p sub hsub
    rw [hv] at h
    simp at h

/-- C2: a path with an out-of-range child index at any step makes every
walking operation surface the distinct invalid-path error (the
`AttributeError` that `layout_iter` raises) rather than return a default
node; since the embedding performs each operation's state update strictly
after its fallible path walks — exactly as the source does — an errored call
leaves the layout geometry and the annotation list exactly as they were. -/
theorem C2_invalid_path_surfaced (s : TreeState) (path : List ℤ) (i : ℕ) (c : ℤ)
    (h : s.layout_iterE path = .error (.invalidPath i c)) :
    s.sublayoutE path = .error (.invalidPath i c) ∧
    s.subtree_boundsE path = .error (.invalidPath i c) ∧
    s.box_constituentE path = .error (.invalidPath i c) ∧
    s.underline_constituentE path = .error (.invalidPath i c) ∧
    (∀ p2 : List ℤ,
      (∃ j d, s.movement_arrowE path p2 = .error (.invalidPath j d)) ∧
      (∃ j d, s.movement_arrowE p2 path = .error (.invalidPath j d))) := by
  have hsub : s.sublayoutE path = .error (.invalidPath i c) :=
    sublayoutE_error_of_iter s path _ h
  have hbounds : s.subtree_boundsE path = .error (.invalidPath i c) :=
    subtree_boundsE_error_of_sub s path _ hsub
  refine ⟨hsub, hbounds, ?_, ?_, ?_⟩
  · unfold TreeState.box_constituentE
    rw [hbounds]
  · unfold TreeState.underline_constituentE
    rw [hbounds]
  · intro p2
    constructor
    · refine ⟨i, c, ?_⟩
      unfold TreeState.movement_arrowE
      simp only [bind, Except.bind, hbounds]
    · cases hb2 : s.subtree_boundsE p2 with
      | error e2 =>
        obtain ⟨j, d, rfl⟩ := subtree_boundsE_error_shape s p2 e2 hb2
        refine ⟨j, d, ?_⟩
        unfold TreeState.movement_arrowE
        simp only [bind, Except.bind, hb2]
      | ok b2 =>
        refine ⟨i, c, ?_⟩
        obtain ⟨b2x, b2y, b2w, b2h⟩ := b2
        unfold TreeState.movement_arrowE
        simp only [bind, Except.bind, hb2, hbounds]

/-- Witness for C2: the spec's scenario — the invalid path `[0, 5]` on a
tree whose root's first child has only two children. -/
theorem C2_witness :
    (c2L.layout_iterE [0, 5] = .error (.invalidPath 1 5)) ∧
    (c2L.sublayoutE [0, 5] = .error (.invalidPath 1 5) ∧
     c2L.subtree_boundsE [0, 5] = .error (.invalidPath 1 5) ∧
     c2L.box_constituentE [0, 5] = .error (.invalidPath 1 5) ∧
     c2L.underline_constituentE [0, 5] = .error (.invalidPath 1 5) ∧
     (∀ p2 : List ℤ,
       (∃ j d, c2L.movement_arrowE [0, 5] p2 = .error (.invalidPath j d)) ∧
       (∃ j d, c2L.movement_arrowE p2 [0, 5] = .error (.invalidPath j d)))) := by
  have h : c2L.layout_iterE [0, 5] = .error (.invalidPath 1 5) := rfl
  exact ⟨h, C2_invalid_path_surfaced c2L [0, 5] 1 5 h⟩

theorem box_constituentE_ok_shape (s : TreeState) (path : List ℤ) (s2 : TreeState)
    (h : s.box_constituentE path = .ok s2) :
    s2.layout = s.layout ∧ s2.level_heights = s.level_heights ∧ s2.level_ys = s.level_ys ∧
    s2.max_width = s.max_width ∧ s2.depth = s.depth ∧ s2.options = s.options ∧
    s2.extra_y = s.extra_y ∧ (∃ a, s2.annots = s.annots ++ [a]) := by
  unfold TreeState.box_constituentE at h
  cases hb : s.subtree_boundsE path with
  | error e => rw [hb] at h; simp at h
  | ok b =>
    obtain ⟨x, y, w, hh⟩ := b
    rw [hb] at h
    cases h
    exact ⟨rfl, rfl, rfl, rfl, rfl, rfl, rfl, _, rfl⟩

theorem underline_constituentE_ok_shape (s : TreeState) (path : List ℤ) (s2 : TreeState)
    (h : s.underline_constituentE path = .ok s2) :
    s2.layout = s.layout ∧ s2.level_heights = s.level_heights ∧ s2.level_ys = s.level_ys ∧
    s2.max_width = s.max_width ∧ s2.depth = s.depth ∧ s2.options = s.options ∧
    s2.extra_y = s.extra_y ∧ (∃ a, s2.annots = s.annots ++ [a]) := by
  unfold TreeState.underline_constituentE at h
  cases hb : s.subtree_boundsE path with
  | error e => rw [hb] at h; simp at h
  | ok b =>
    obtain ⟨x, y, w, hh⟩ := b
    rw [hb] at h
    cases h
    exact ⟨rfl, rfl, rfl, rfl, rfl, rfl, rfl, _, rfl⟩

theorem movement_arrowE_ok_shape (s : TreeState) (p1 p2 : List ℤ) (s3 : TreeState)
    (h : s.movement_arrowE p1 p2 = .ok s3) :
    s3.layout = s.layout ∧ s3.level_heights = s.level_heights ∧ s3.level_ys = s.level_ys ∧
    s3.max_width = s.max_width ∧ s3.depth = s.depth ∧ s3.options = s.options ∧
    (∃ new, new ≠ [] ∧ s3.annots = s.annots ++ new) ∧ s3.extra_y = max s.extra_y 2 := by
  unfold TreeState.movement_arrowE at h
  cases hb1 : s.subtree_boundsE p1 with
  | error e => simp [hb1, bind, Except.bind] at h
  | ok b1 =>
    cases hb2 : s.subtree_boundsE p2 with
    | error e => simp [hb1, hb2, bind, Except.bind] at h
    | ok b2 =>
      obtain ⟨b1x, b1y, b1w, b1h⟩ := b1
      obtain ⟨b2x, b2y, b2w, b2h⟩ := b2
      cases hdy : s.movement_default_y p1 p2 with
      | error e => simp [hb1, hb2, hdy, bind, Except.bind] at h
      | ok dy =>
        simp only [hb1, hb2, hdy, bind, Except.bind, pure, Except.pure] at h
        cases hfind : movement_find_y s.movement_arrows
            (min (b1x + b1w / 2) (b2x + b2w / 2)) (max (b1x + b1w / 2) (b2x + b2w / 2)) dy with
        | none => rw [hfind] at h; simp at h
        | some v =>
          obtain ⟨yt, arrows2⟩ := v
          rw [hfind] at h
          cases h
          exact ⟨rfl, rfl, rfl, rfl, rfl, rfl, ⟨_, by simp, rfl⟩, rfl⟩

/-- C9 (amended): every annotation operation leaves the positioned tree and
all per-level aggregates exactly as they were, mutates the annotation list
only by appending a non-empty suffix, and never decreases
`extraVerticalSpace`; a movement arrow sets `extraVerticalSpace` to
`max(extraVerticalSpace, 2)` — at least 2 to guarantee canvas room, but (the
amendment forced by the counterexample) not a strict increase when it is
already 2 or more. -/
theorem C9_annotation_frame (s : TreeState) (path p1 p2 : List ℤ) :
    frame_ok s (s.box_constituentE path) ∧
    frame_ok s (s.underline_constituentE path) ∧
    frame_ok s (s.movement_arrowE p1 p2) ∧
    movement_extra_ok s (s.movement_arrowE p1 p2) := by
  refine ⟨?_, ?_, ?_, ?_⟩
  · cases hb : s.box_constituentE path with
    | error e => simp [frame_ok]
    | ok s2 =>
      obtain ⟨hl, hlh, hly, hmw, hd, ho, he, a, ha⟩ := box_constituentE_ok_shape s path s2 hb
      simp only [frame_ok]
      exact ⟨hl, hlh, hly, hmw, hd, ho, ⟨[a], by simp, ha⟩, le_of_eq he.symm⟩
  · cases hb : s.underline_constituentE path with
    | error e => simp [frame_ok]
    | ok s2 =>
      obtain ⟨hl, hlh, hly, hmw, hd, ho, he, a, ha⟩ :=
        underline_constituentE_ok_shape s path s2 hb
      simp only [frame_ok]
      exact ⟨hl, hlh, hly, hmw, hd, ho, ⟨[a], by simp, ha⟩, le_of_eq he.symm⟩
  · cases hb : s.movement_arrowE p1 p2 with
    | error e => simp [frame_ok]
    | ok s3 =>
      obtain ⟨hl, hlh, hly, hmw, hd, ho, hann, he⟩ := movement_arrowE_ok_shape s p1 p2 s3 hb
      simp only [frame_ok]
      exact ⟨hl, hlh, hly, hmw, hd, ho, hann, by rw [he]; exact le_max_left _ _⟩
  · cases hb : s.movement_arrowE p1 p2 with
    | error e => simp [movement_extra_ok]
    | ok s3 =>
      obtain ⟨_, _, _, _, _, _, _, he⟩ := movement_arrowE_ok_shape s p1 p2 s3 hb
      simpa [movement_extra_ok] using he

/-- C9 counterexample to the claim's "adding any movement arrow increases
extraVerticalSpace": the first arrow raises `extra_y` from 1 to 2, but a
second identical arrow leaves it at 2 — no increase. -/
theorem C9_counterexample :
    c9L.movement_arrowE [0] [1] = .ok c9s1 ∧
    c9s1.movement_arrowE [0] [1] = .ok c9s2 ∧
    c9s1.extra_y = 2 ∧ c9s2.extra_y = 2 ∧ ¬ (c9s1.extra_y < c9s2.extra_y) := by
  have h1 : c9L.sublayoutE [0] = .ok (okOr (c9L.sublayoutE [0]) c9L.layout) := rfl
  have h2 : c9L.sublayoutE [1] = .ok (okOr (c9L.sublayoutE [1]) c9L.layout) := rfl
  obtain ⟨s3, hm, hex, hlay, _⟩ := movement_arrowE_ok_of_valid c9L [0] [1] _ _ h1 h2
  have hc9s1 : c9s1 = s3 := by
    rw [c9s1, hm]
    rfl
  have hex1 : c9s1.extra_y = 2 := by
    rw [hc9s1, hex]
    show max (1 : ℚ) 2 = 2
    norm_num
  have hsub1 : c9s1.sublayoutE [0] = c9L.sublayoutE [0] := by
    unfold TreeState.sublayoutE TreeState.layout_iterE
    rw [hc9s1, hlay]
  have hsub2 : c9s1.sublayoutE [1] = c9L.sublayoutE [1] := by
    unfold TreeState.sublayoutE TreeState.layout_iterE
    rw [hc9s1, hlay]
  obtain ⟨s4, hm2, hex2, _⟩ := movement_arrowE_ok_of_valid c9s1 [0] [1] _ _
    (hsub1.trans h1) (hsub2.trans h2)
  have hc9s2 : c9s2 = s4 := by
    rw [c9s2, hm2]
    rfl
  have hex2v : c9s2.extra_y = 2 := by
    rw [hc9s2, hex2, hex1]
    show max (2 : ℚ) 2 = 2
    norm_num
  refine ⟨?_, ?_, hex1, hex2v, ?_⟩
  · rw [hc9s1]
    exact hm
  · rw [hc9s2]
    exact hm2
  · rw [hex1, hex2v]
    norm_num

theorem ptree_leaves_ne_nil : ∀ t : PTree, ptree_leaves t ≠ [] := by
  intro t
  induction t using PTree.strongInd with
  | _ nd cs ih =>
    rw [ptree_leaves]
    cases cs with
    | nil => simp
    | cons c rest =>
      rw [if_neg (by simp)]
      rw [ptree_leavesL]
      intro h
      rcases List.append_eq_nil.mp h with ⟨h1, _⟩
      exact ih c (by simp) h1

theorem listMaxNat_append (a b : List ℕ) (ha : a ≠ []) (hb : b ≠ []) :
    listMaxNat (a ++ b) = max (listMaxNat a) (listMaxNat b) := by
  cases a with
  | nil => simp at ha
  | cons x xs =>
    cases b with
    | nil => simp at hb
    | cons y ys =>
      show listMaxNat (x :: (xs ++ y :: ys)) = _
      rw [listMaxNat, listMaxNat, listMaxNat]
      rw [List.foldl_append]
      have hgen : ∀ (l : List ℕ) (v w : ℕ), List.foldl max (max v w) l = max v (List.foldl max w l) := by
        intro l
        induction l with
        | nil => intro v w; rfl
        | cons z zs ihz =>
          intro v w
          show List.foldl max (max (max v w) z) zs = max v (List.foldl max (max w z) zs)
          rw [max_assoc, ihz]
      show List.foldl max (max (List.foldl max x xs) y) ys = _
      rw [hgen ys (List.foldl max x xs) y]

theorem listMaxNat_all_eq {v : ℕ} :
    ∀ {l : List ℕ}, l ≠ [] → (∀ x ∈ l, x = v) → listMaxNat l = v := by
  intro l
  induction l with
  | nil => intro h; simp at h
  | cons x xs ih =>
    intro _ hall
    rw [listMaxNat]
    cases xs with
    | nil => exact hall x (by simp)
    | cons y ys =>
      have hx : x = v := hall x (by simp)
      subst hx
      show List.foldl max (max x y) ys = x
      have h2 : ∀ (l2 : List ℕ) (w u : ℕ), (∀ z ∈ l2, z = u) → w ≤ u →
          List.foldl max (max u w) l2 = u := by
        intro l2
        induction l2 with
        | nil =>
          intro w u _ hw
          show max u w = u
          exact max_eq_left hw
        | cons z zs ihz =>
          intro w u hall2 hw
          show List.foldl max (max (max u w) z) zs = u
          rw [max_eq_left hw, hall2 z (by simp)]
          exact ihz u u (fun z2 hz2 => hall2 z2 (by simp [hz2])) (le_refl u)
      have hy : y = x := hall y (by simp)
      subst hy
      exact h2 ys y y (fun z hz => hall z (by simp [hz])) (le_refl y)


theorem ptree_leavesL_ne_nil (c : PTree) (rest : List PTree) :
    ptree_leavesL (c :: rest) ≠ [] := by
  rw [ptree_leavesL]
  intro h
  rcases List.append_eq_nil.mp h with ⟨h1, _⟩
  exact ptree_leaves_ne_nil c h1

/-- Python index 0 is the head. -/
theorem pyIndex_zero {α : Type} (l : List α) : pyIndex l 0 = l[0]? := by
  unfold pyIndex pyNorm
  cases l with
  | nil => simp
  | cons a rest => simp

/-- Python index -1 is the last element. -/
theorem pyIndex_negone {α : Type} (l : List α) : pyIndex l (-1) = l.getLast? := by
  unfold pyIndex pyNorm
  cases l with
  | nil => simp
  | cons a rest =>
    have hlen : (0:ℤ) ≤ -1 + ((a :: rest).length : ℤ) := by
      simp only [List.length_cons]
      push_cast
      omega
    rw [if_neg (by norm_num), if_pos hlen]
    have htn : (-1 + ((a :: rest).length : ℤ)).toNat = (a :: rest).length - 1 := by
      simp only [List.length_cons]
      omega
    rw [htn]
    show (a :: rest)[(a :: rest).length - 1]? = (a :: rest).getLast?
    exact (List.getLast?_eq_getElem? _).symm

theorem NodePos.width_update_depth (nd : NodePos) (w : ℚ) :
    ({ nd with width := w } : NodePos).depth = nd.depth := rfl

/-- Without `leaf_nodes_align`, the deepest leaf of the pass-1 subtree built
at `level` sits exactly at depth `level + (tree_depth t - 1)`. -/
theorem build_fst_leafdepths_noalign (opts : TreeOptions)
    (halign : opts.leaf_nodes_align = false) (maxd : ℕ) :
    ∀ (t : STree) (level : ℕ),
      listMaxNat ((ptree_leaves (build_fst opts maxd t level)).map (fun nd => nd.depth))
        = level + (tree_depth t - 1) := by
  intro t
  induction t using STree.strongInd with
  | _ label cs ih =>
    intro level
    rw [build_fst, ptree_leaves, build_fstL_map, tree_depth]
    cases cs with
    | nil =>
      simp only [List.map_nil, List.isEmpty_nil, if_true, List.map_cons]
      rw [NodePos.width_update_depth, from_label_depth, listMaxNat, List.foldl_nil]
      rw [tree_depthL]
      simp [halign]
    | cons c rest =>
      rw [if_neg (by simp)]
      have hlist : ∀ (cs2 : List STree) (c2 : STree), (∀ d ∈ c2 :: cs2, ∀ lv : ℕ,
          listMaxNat ((ptree_leaves (build_fst opts maxd d lv)).map (fun nd => nd.depth))
            = lv + (tree_depth d - 1)) →
          ∀ lv : ℕ,
            listMaxNat ((ptree_leavesL ((c2 :: cs2).map
                (fun d => build_fst opts maxd d lv))).map (fun nd => nd.depth))
              = lv + (tree_depthL (c2 :: cs2) - 1) := by
        intro cs2
        induction cs2 with
        | nil =>
          intro c2 hIH lv
          simp only [List.map_cons, List.map_nil]
          rw [ptree_leavesL, ptree_leavesL, List.append_nil]
          rw [hIH c2 (by simp) lv]
          rw [tree_depthL, tree_depthL]
          have := tree_depth_pos c2
          omega
        | cons r rest2 ihr =>
          intro c2 hIH lv
          simp only [List.map_cons]
          rw [ptree_leavesL, List.map_append]
          rw [listMaxNat_append _ _
            (fun h => ptree_leaves_ne_nil _ (List.map_eq_nil.mp h))
            (fun h => ptree_leavesL_ne_nil _ _ (List.map_eq_nil.mp h))]
          rw [hIH c2 (by simp) lv]
          have hrest := ihr r (fun d hd lv2 => hIH d (List.mem_cons_of_mem c2 hd) lv2) lv
          simp only [List.map_cons] at hrest
          rw [hrest]
          have hd : tree_depthL (c2 :: r :: rest2)
              = max (tree_depth c2) (tree_depthL (r :: rest2)) := by
            conv_lhs => rw [tree_depthL]
          rw [hd]
          have h1 := tree_depth_pos c2
          have h2 : 1 ≤ tree_depthL (r :: rest2) := by
            rw [tree_depthL]
            exact le_trans (tree_depth_pos r) (le_max_left _ _)
          omega
      rw [hlist rest c ih (level + 1)]
      have h2 : 1 ≤ tree_depthL (c :: rest) := by
        rw [tree_depthL]
        exact le_trans (tree_depth_pos c) (le_max_left _ _)
      omega

/-- The deepest leaf depth stored in the final layout is exactly the
layout's `depth` (the tree's maximum depth minus one), with or without
`leaf_nodes_align`. -/
theorem layout_leafdepths_max (t : STree) (opts : TreeOptions) :
    listMaxNat ((ptree_leaves (TreeLayout t opts).layout).map (fun nd => nd.depth))
      = (TreeLayout t opts).depth := by
  rw [TreeLayout_layout_eq, TreeLayout_depth]
  rw [ptree_leaves_normalize_y, List.map_map]
  have hcomp : ((fun nd : NodePos => nd.depth) ∘
      normY_node opts (build_initial opts (tree_depth t - 1) t 0 (fun _ => 0)).2)
      = fun nd : NodePos => nd.depth := by
    funext nd
    exact (normY_node_fields _ _ nd).2.2.1
  rw [hcomp]
  rw [leafdepths_normalize_widths]
  rw [leafdepths_rootmod]
  have hBeq : PTree.mk (build_fst opts (tree_depth t - 1) t 0).node
      (build_fst opts (tree_depth t - 1) t 0).children
      = build_fst opts (tree_depth t - 1) t 0 := by
    cases hB : build_fst opts (tree_depth t - 1) t 0 with
    | mk bn bcs => rw [PTree.node_mk, PTree.children_mk]
  rw [hBeq]
  cases halign : opts.leaf_nodes_align with
  | false =>
    rw [build_fst_leafdepths_noalign opts halign (tree_depth t - 1) t 0]
    omega
  | true =>
    apply listMaxNat_all_eq
    · intro h
      exact ptree_leaves_ne_nil _ (List.map_eq_nil.mp h)
    · intro x hx
      obtain ⟨nd, hnd, rfl⟩ := List.mem_map.mp hx
      exact build_fst_leaf_depth_align opts halign (tree_depth t - 1) t 0 nd hnd

/-- The root node of the pass-1 tree is stored at depth 0 (even under
`leaf_nodes_align`, where a root leaf gets `maxd = tree_depth - 1 = 0`). -/
theorem build_fst_root_depth (opts : TreeOptions) (t : STree) :
    (build_fst opts (tree_depth t - 1) t 0).node.depth = 0 := by
  cases t with
  | node label cs =>
    rw [build_fst, PTree.node_mk, NodePos.width_update_depth, from_label_depth]
    cases cs with
    | nil =>
      rw [tree_depth, tree_depthL]
      simp
    | cons c rest => simp

/-- The final layout's root node is stored at depth 0. -/
theorem layout_root_depth (t : STree) (opts : TreeOptions) :
    (TreeLayout t opts).layout.node.depth = 0 := by
  rw [TreeLayout_layout_eq, normalize_y_node, (normY_node_fields _ _ _).2.2.1,
      normalize_widths_node, PTree.node_mk]
  show (build_fst opts (tree_depth t - 1) t 0).node.depth = 0
  exact build_fst_root_depth opts t

/-- The pass-2 invariant transported to the final layout: the root is at
x = 0 with width 100, and every internal node's children have widths summing
to 100 with prefix-sum x offsets. -/
theorem layout_inv (t : STree) (opts : TreeOptions) (hpad : 0 ≤ opts.leaf_padding) :
    ((TreeLayout t opts).layout.node.width = 100 ∧ (TreeLayout t opts).layout.node.x = 0) ∧
    (∀ s ∈ ptree_subtrees (TreeLayout t opts).layout, s.children ≠ [] →
        ((s.children.map (fun c => c.node.width)).sum = 100 ∧
         ∀ (i : ℕ) (c : PTree), s.children[i]? = some c →
           c.node.x = ((s.children.map (fun c2 => c2.node.width)).take i).sum)) := by
  set B := build_fst opts (tree_depth t - 1) t 0 with hB
  set parsed1 := PTree.mk { B.node with width := 100, x := 0 } B.children with hparsed1
  have hwid1 : ∀ s ∈ ptree_subtrees parsed1, 1 ≤ s.node.width := by
    intro s hs
    cases hBc : B with
    | mk bn bcs =>
      rw [hparsed1, hBc] at hs
      rw [mem_ptree_subtrees_iff] at hs
      rcases hs with rfl | ⟨c, hc, hmem⟩
      · norm_num [PTree.node]
      · have : s ∈ ptree_subtrees (build_fst opts (tree_depth t - 1) t 0) := by
          rw [← hB, hBc]
          exact mem_subtrees_of_child hc hmem
        exact build_fst_width_ge1 opts (tree_depth t - 1) t 0 s this
  have hinv := normalize_widths_invariant opts hpad parsed1 hwid1
  set hsf := (build_initial opts (tree_depth t - 1) t 0 (fun _ => 0)).2 with hhsf
  have hlay : (TreeLayout t opts).layout
      = normalize_y opts hsf (normalize_widths opts parsed1) := TreeLayout_layout_eq t opts
  refine ⟨?_, ?_⟩
  · rw [hlay, normalize_y_node]
    rw [(normY_node_fields opts hsf _).1, (normY_node_fields opts hsf _).2.1]
    rw [normalize_widths_node]
    exact ⟨rfl, rfl⟩
  · intro s hs hsne
    rw [hlay, ptree_subtrees_normalize_y] at hs
    obtain ⟨s0, hs0, rfl⟩ := List.mem_map.mp hs
    rw [normalize_y_children] at hsne ⊢
    have hs0ne : s0.children ≠ [] := fun h => hsne (by rw [h]; rfl)
    obtain ⟨hsum, hx⟩ := (hinv s0 hs0).1 hs0ne
    rw [map_width_normalize_y]
    refine ⟨hsum, ?_⟩
    intro i c hic
    rw [List.getElem?_map] at hic
    cases hc0 : s0.children[i]? with
    | none => rw [hc0] at hic; simp at hic
    | some c0 =>
      rw [hc0] at hic
      have hceq : c = normalize_y opts hsf c0 := by
        simpa using hic.symm
      rw [hceq, normalize_y_node, (normY_node_fields opts hsf c0.node).2.1]
      exact hx i c0 hc0

/-- Under the pass-2 invariant, every first child sits at x = 0. -/
theorem inv_first_child_x {r : PTree}
    (hinv : ∀ s ∈ ptree_subtrees r, s.children ≠ [] →
        ((s.children.map (fun c => c.node.width)).sum = 100 ∧
         ∀ (i : ℕ) (c : PTree), s.children[i]? = some c →
           c.node.x = ((s.children.map (fun c2 => c2.node.width)).take i).sum)) :
    ∀ s ∈ ptree_subtrees r, ∀ c : PTree, s.children[0]? = some c → c.node.x = 0 := by
  intro s hs c hc
  have hne : s.children ≠ [] := by
    intro h
    rw [h] at hc
    simp at hc
  have := (hinv s hs hne).2 0 c hc
  simpa using this

/-- Under the pass-2 invariant, every last child's far edge is at 100. -/
theorem inv_last_child_xw {r : PTree}
    (hinv : ∀ s ∈ ptree_subtrees r, s.children ≠ [] →
        ((s.children.map (fun c => c.node.width)).sum = 100 ∧
         ∀ (i : ℕ) (c : PTree), s.children[i]? = some c →
           c.node.x = ((s.children.map (fun c2 => c2.node.width)).take i).sum)) :
    ∀ s ∈ ptree_subtrees r, ∀ c : PTree, s.children.getLast? = some c →
      c.node.x + c.node.width = 100 := by
  intro s hs c hc
  have hne : s.children ≠ [] := by
    intro h
    rw [h] at hc
    simp at hc
  obtain ⟨hsum, hx⟩ := hinv s hs hne
  rw [List.getLast?_eq_getElem?] at hc
  have hxc := hx (s.children.length - 1) c hc
  have hnpos : 1 ≤ s.children.length := by
    cases hcc : s.children with
    | nil => exact absurd hcc hne
    | cons a l => simp
  have hwlen : (s.children.map (fun c2 => c2.node.width)).length = s.children.length :=
    List.length_map _ _
  have hwc : (s.children.map (fun c2 => c2.node.width))[s.children.length - 1]?
      = some c.node.width := by
    rw [List.getElem?_map, hc]
    rfl
  have hsplit := List.sum_take_add_sum_drop
    (s.children.map (fun c2 => c2.node.width)) (s.children.length - 1)
  have hlt : s.children.length - 1 < (s.children.map (fun c2 => c2.node.width)).length := by
    omega
  have hdrop : (s.children.map (fun c2 => c2.node.width)).drop (s.children.length - 1)
      = [c.node.width] := by
    rw [List.drop_eq_getElem_cons hlt]
    have hg : (s.children.map (fun c2 => c2.node.width))[s.children.length - 1] =
        c.node.width := by
      have h2 := List.getElem?_eq_getElem hlt
      rw [h2] at hwc
      exact Option.some.inj hwc
    rw [hg]
    have h3 : s.children.length - 1 + 1 = (s.children.map (fun c2 => c2.node.width)).length := by
      omega
    rw [h3, List.drop_length]
  rw [hdrop] at hsplit
  simp only [List.sum_cons, List.sum_nil, add_zero] at hsplit
  rw [hxc]
  rw [hsum] at hsplit
  linarith

/-- Along the all-0 (leftmost) descent, `node_x_vals`' accumulated left
offset stays 0 whenever the subtree's root and every first child sit at
x = 0. -/
theorem left_descent_fold :
    ∀ (fuel : ℕ) (t : PTree), ptree_height t ≤ fuel → t.node.x = 0 →
      (∀ s ∈ ptree_subtrees t, ∀ c : PTree, s.children[0]? = some c → c.node.x = 0) →
      ∀ (i : ℕ) (acc : ℚ × ℚ), acc.1 = 0 →
        ∃ l, layout_iter_from t (nmost_go fuel t [] 0) i = .ok l ∧
          (l.foldl (fun lw u => (lw.1 + u.node.x * lw.2 / 100, lw.2 * u.node.width / 100))
            acc).1 = 0 := by
  intro fuel
  induction fuel with
  | zero =>
    intro t h
    have := ptree_height_pos t
    omega
  | succ fuel ih =>
    intro t h hx hfc i acc hacc
    cases t with
    | mk nd cs =>
      rw [nmost_go]
      cases hidx : pyIndex cs 0 with
      | none =>
        refine ⟨[PTree.mk nd cs], rfl, ?_⟩
        simp only [List.foldl_cons, List.foldl_nil]
        rw [hacc, hx]
        norm_num
      | some c =>
        simp only [List.nil_append]
        rw [nmost_go_append fuel c [0] 0]
        have hc0 : cs[0]? = some c := by
          rw [← pyIndex_zero]
          exact hidx
        have hcx : c.node.x = 0 :=
          hfc (PTree.mk nd cs) (self_mem_ptree_subtrees _) c hc0
        have hfc2 : ∀ s ∈ ptree_subtrees c, ∀ d : PTree,
            s.children[0]? = some d → d.node.x = 0 :=
          fun s hs => hfc s (mem_subtrees_of_child (pyIndex_mem hidx) hs)
        have hhc : ptree_height c ≤ fuel := by
          have h1 : ptree_height c ≤ ptree_heightL cs := ptree_height_child_le (pyIndex_mem hidx)
          rw [ptree_height_mk] at h
          omega
        obtain ⟨l, hl, hfold⟩ := ih c hhc hcx hfc2 (i + 1)
            (acc.1 + nd.x * acc.2 / 100, acc.2 * nd.width / 100)
            (by rw [hacc, show nd.x = (0:ℚ) from hx]; norm_num)
        refine ⟨PTree.mk nd cs :: l, ?_, ?_⟩
        · show layout_iter_from (PTree.mk nd cs) (0 :: nmost_go fuel c [] 0) i = _
          rw [layout_iter_from]
          simp only [PTree.children_mk, hidx, hl]
        · simp only [List.foldl_cons]
          exact hfold

/-- Along the all-(-1) (rightmost) descent, `node_x_vals`' accumulated
left offset plus width stays 100 whenever the subtree's root and every last
child have their far edge at 100. -/
theorem right_descent_fold :
    ∀ (fuel : ℕ) (t : PTree), ptree_height t ≤ fuel → t.node.x + t.node.width = 100 →
      (∀ s ∈ ptree_subtrees t, ∀ c : PTree, s.children.getLast? = some c →
          c.node.x + c.node.width = 100) →
      ∀ (i : ℕ) (acc : ℚ × ℚ), acc.1 + acc.2 = 100 →
        ∃ l, layout_iter_from t (nmost_go fuel t [] (-1)) i = .ok l ∧
          (l.foldl (fun lw u => (lw.1 + u.node.x * lw.2 / 100, lw.2 * u.node.width / 100))
            acc).1
          + (l.foldl (fun lw u => (lw.1 + u.node.x * lw.2 / 100, lw.2 * u.node.width / 100))
            acc).2 = 100 := by
  have hstep : ∀ (a b x w : ℚ), x + w = 100 → a + b = 100
      → (a + x * b / 100) + b * w / 100 = 100 := by
    intro a b x w hxw hab
    have h1 : x * b / 100 + b * w / 100 = b * (x + w) / 100 := by ring
    have h2 : a + x * b / 100 + b * w / 100 = a + (x * b / 100 + b * w / 100) := by ring
    rw [h2, h1, hxw]
    have h3 : b * 100 / 100 = b := by ring
    rw [h3]
    exact hab
  intro fuel
  induction fuel with
  | zero =>
    intro t h
    have := ptree_height_pos t
    omega
  | succ fuel ih =>
    intro t h hxw hlc i acc hacc
    cases t with
    | mk nd cs =>
      rw [nmost_go]
      cases hidx : pyIndex cs (-1) with
      | none =>
        refine ⟨[PTree.mk nd cs], rfl, ?_⟩
        simp only [List.foldl_cons, List.foldl_nil]
        exact hstep acc.1 acc.2 nd.x nd.width hxw hacc
      | some c =>
        simp only [List.nil_append]
        rw [nmost_go_append fuel c [-1] (-1)]
        have hcl : cs.getLast? = some c := by
          rw [← pyIndex_negone]
          exact hidx
        have hcxw : c.node.x + c.node.width = 100 :=
          hlc (PTree.mk nd cs) (self_mem_ptree_subtrees _) c hcl
        have hlc2 : ∀ s ∈ ptree_subtrees c, ∀ d : PTree,
            s.children.getLast? = some d → d.node.x + d.node.width = 100 :=
          fun s hs => hlc s (mem_subtrees_of_child (pyIndex_mem hidx) hs)
        have hhc : ptree_height c ≤ fuel := by
          have h1 : ptree_height c ≤ ptree_heightL cs := ptree_height_child_le (pyIndex_mem hidx)
          rw [ptree_height_mk] at h
          omega
        obtain ⟨l, hl, hfold⟩ := ih c hhc hcxw hlc2 (i + 1)
            (acc.1 + nd.x * acc.2 / 100, acc.2 * nd.width / 100)
            (hstep acc.1 acc.2 nd.x nd.width hxw hacc)
        refine ⟨PTree.mk nd cs :: l, ?_, ?_⟩
        · show layout_iter_from (PTree.mk nd cs) (-1 :: nmost_go fuel c [] (-1)) i = _
          rw [layout_iter_from]
          simp only [PTree.children_mk, hidx, hl]
        · simp only [List.foldl_cons]
          exact hfold

theorem TreeLayout_level_ys0 (t : STree) (opts : TreeOptions) :
    (TreeLayout t opts).level_ys 0 = 0 := rfl

/-- The vertical span from level 0 down to the deepest level, plus that
level's row height and the half-em margin, is the total height minus the
extra canvas space plus the half-em margin. -/
theorem y_distance_root (s : TreeState) (h0 : s.level_ys 0 = 0) :
    s.y_distance 0 s.depth + s.level_heights s.depth + 1/2
      = s.heightTotal - s.extra_y + 1/2 := by
  unfold TreeState.y_distance TreeState.heightTotal
  rw [min_self, Nat.sub_zero, List.range_eq_range']
  rw [List.range'_succ]
  simp only [List.map_cons, List.sum_cons, h0, zero_add]
  ring

/-- The root bounding box of any layout: x = 0, y = 0, width = 100, height
`heightTotal - extra_y + 1/2` (half an em below the deepest leaf row, not
the full `extra_y` the canvas reserves). -/
theorem root_bounds_eq (t : STree) (opts : TreeOptions) (hpad : 0 ≤ opts.leaf_padding) :
    (TreeLayout t opts).subtree_boundsE []
      = .ok (0, 0, 100,
          (TreeLayout t opts).heightTotal - (TreeLayout t opts).extra_y + 1/2) := by
  obtain ⟨⟨hw100, hx0⟩, hinv⟩ := layout_inv t opts hpad
  have hsub : (TreeLayout t opts).sublayoutE [] = .ok (TreeLayout t opts).layout :=
    (sublayoutE_ok_iff _ [] _).mpr rfl
  have hlp : (TreeLayout t opts).leftmost_path []
      = .ok (nmost_go (ptree_height (TreeLayout t opts).layout)
          (TreeLayout t opts).layout [] 0) := by
    unfold TreeState.leftmost_path TreeState.nmost_path
    rw [hsub]
    show Except.ok (if ([] : List ℤ).length < (TreeLayout t opts).depth + 1
        then nmost_descend (TreeLayout t opts).layout [] 0 else []) = _
    rw [if_pos (by simp)]
    rfl
  have hrp : (TreeLayout t opts).rightmost_path []
      = .ok (nmost_go (ptree_height (TreeLayout t opts).layout)
          (TreeLayout t opts).layout [] (-1)) := by
    unfold TreeState.rightmost_path TreeState.nmost_path
    rw [hsub]
    show Except.ok (if ([] : List ℤ).length < (TreeLayout t opts).depth + 1
        then nmost_descend (TreeLayout t opts).layout [] (-1) else []) = _
    rw [if_pos (by simp)]
    rfl
  obtain ⟨ll, hll, hfoldl⟩ := left_descent_fold (ptree_height (TreeLayout t opts).layout)
      (TreeLayout t opts).layout (le_refl _) hx0 (inv_first_child_x hinv) 0 (0, 100) rfl
  obtain ⟨rl, hrl, hfoldr⟩ := right_descent_fold (ptree_height (TreeLayout t opts).layout)
      (TreeLayout t opts).layout (le_refl _) (by rw [hx0, hw100]; norm_num)
      (inv_last_child_xw hinv) 0 (0, 100) (by norm_num)
  have hxv : (TreeLayout t opts).node_x_valsE
      (nmost_go (ptree_height (TreeLayout t opts).layout) (TreeLayout t opts).layout [] 0)
      = .ok (ll.foldl (fun lw u => (lw.1 + u.node.x * lw.2 / 100, lw.2 * u.node.width / 100))
          (0, 100)) := by
    unfold TreeState.node_x_valsE TreeState.layout_iterE
    rw [hll]
  have hrv : (TreeLayout t opts).node_x_valsE
      (nmost_go (ptree_height (TreeLayout t opts).layout) (TreeLayout t opts).layout [] (-1))
      = .ok (rl.foldl (fun lw u => (lw.1 + u.node.x * lw.2 / 100, lw.2 * u.node.width / 100))
          (0, 100)) := by
    unfold TreeState.node_x_valsE TreeState.layout_iterE
    rw [hrl]
  have hdeep := layout_leafdepths_max t opts
  have hrd := layout_root_depth t opts
  have hy0 : (TreeLayout t opts).y_distance 0 0 = 0 := by
    unfold TreeState.y_distance
    simp
  unfold TreeState.subtree_boundsE
  rw [hsub]
  simp only [bind, Except.bind]
  rw [hlp, hrp]
  simp only [hxv, hrv]
  simp only [pure, Except.pure, Except.ok.injEq, Prod.mk.injEq]
  refine ⟨hfoldl, ?_, ?_, ?_⟩
  · rw [hrd]
    exact hy0
  · rw [hfoldl, sub_zero]
    exact hfoldr
  · rw [hrd, hdeep]
    exact y_distance_root _ (TreeLayout_level_ys0 t opts)

/-- C7 (amended): for every tree (with nonnegative leaf padding, ruling out
the source's `ZeroDivisionError` corner during construction), the bounding
box `subtree_bounds` of the root path equals
`(0, 0, 100, totalHeight - extraVerticalSpace + 1/2)`: x, y and width are as
the original claim says, but the height component is not `height()` — the
box ends half an em below the deepest leaf row, while `height()` reserves
the full `extra_y` (initially 1) below it. -/
theorem C7_root_bounds (t : STree) (opts : TreeOptions) (hpad : 0 ≤ opts.leaf_padding) :
    (TreeLayout t opts).subtree_boundsE []
      = .ok (0, 0, 100,
          (TreeLayout t opts).heightTotal - (TreeLayout t opts).extra_y + 1/2) :=
  root_bounds_eq t opts hpad

/-- Counterexample to the original C7: for the single-node tree "S" with the
default options, the root bounding box is `(0, 0, 100, 3/2)` while the
layout's total height `height()` is 2, so the box's height is not the total
height. -/
theorem C7_counterexample :
    (TreeLayout (STree.node "S" []) defaultOptions).subtree_boundsE []
      = .ok (0, 0, 100, 3/2) ∧
    (TreeLayout (STree.node "S" []) defaultOptions).heightTotal = 2 ∧
    ((3:ℚ)/2 ≠ 2) := by
  have h := root_bounds_eq (STree.node "S" []) defaultOptions (by norm_num [defaultOptions])
  have hdata : "S".data = ['S'] := rfl
  have hlen : "S".length = 1 := rfl
  have hS : ¬('S' = '\n') := by decide
  have hH : (TreeLayout (STree.node "S" []) defaultOptions).heightTotal = 2 := by
    rw [TreeState.heightTotal, TreeLayout_level_heights, TreeLayout_depth, TreeLayout_extra_y,
        TreeLayout_level_ys]
    norm_num [tree_depth, tree_depthL, build_initial, build_initialL, calc_level_ys,
      NodePos.from_label, NodePos.make, split_lines, split_lines_chars, hdata, hlen, hS,
      label_width, defaultOptions, listMax1, List.range_succ, List.range_zero]
  refine ⟨?_, hH, by norm_num⟩
  rw [h, TreeLayout_extra_y, hH]
  simp only [Except.ok.injEq, Prod.mk.injEq]
  norm_num

/-- Witness for C7 at the spec's scenario tree with the default options. -/
theorem C7_witness :
    ((0:ℚ) ≤ defaultOptions.leaf_padding) ∧
    (TreeLayout c2tree defaultOptions).subtree_boundsE []
      = .ok (0, 0, 100,
          (TreeLayout c2tree defaultOptions).heightTotal
            - (TreeLayout c2tree defaultOptions).extra_y + 1/2) :=
  ⟨by norm_num [defaultOptions],
   C7_root_bounds c2tree defaultOptions (by norm_num [defaultOptions])⟩
